import Mathlib

/-!
Verification of the graph model builder of the relations-visualization
repository (`src/js/data-processor.js`).

The JavaScript `DataProcessor` class is shallowly embedded as pure Lean
functions.  JS `Map` objects (which are insertion ordered) are embedded as
association lists built from the empty list by `mset`; JS `Set` objects as
duplicate-free lists built by `sadd`; JS exceptions, where a claim needs
them, as `Except String`.  Machine numbers only ever hold (small) integer
relation ids here, so they are embedded as `Int`.
-/

/-- Insertion-ordered map lookup, mirroring JS `Map.prototype.get`. -/
def mget [DecidableEq κ] : List (κ × β) → κ → Option β
  | [], _ => none
  | p :: rest, k => if p.1 = k then some p.2 else mget rest k

/-- Insertion-ordered map update, mirroring JS `Map.prototype.set`:
an existing key keeps its position, a new key is appended at the end. -/
def mset [DecidableEq κ] : List (κ × β) → κ → β → List (κ × β)
  | [], k, v => [(k, v)]
  | p :: rest, k, v => if p.1 = k then (k, v) :: rest else p :: mset rest k v

/-- Insertion-ordered set insertion, mirroring JS `Set.prototype.add`. -/
def sadd [DecidableEq α] (s : List α) (a : α) : List α :=
  if a ∈ s then s else s ++ [a]

/-- `semantic_all_edge_tag.json` record, as consumed by `data-processor.js`. -/
structure TagRecord where
  tag_id : String
  tag_name : String
  src_dataset : String
  dst_dataset : String
  relation_ids : List String
  tenant_id : String
  is_deleted : Bool
deriving DecidableEq

/-- `semantic_dm_table_relation_def.json` record.  `condition` is an opaque
structured value in the data; the builder only copies it, so it is embedded
as an opaque `String`. -/
structure RelationRecord where
  id : Int
  src_table : String
  dst_table : String
  type : String
  direction : String
  condition : String
deriving DecidableEq

/-- Node object created by `buildNodes`. -/
structure Node where
  id : String
  name : String
  type : String
  relations : List Int
deriving DecidableEq

/-- Link object created by `buildLinks`.  The JS `color` can be `undefined`
when the color map has no entry for the tag name, hence `Option String`. -/
structure Edge where
  id : String
  source : Node
  target : Node
  relationId : Int
  tagIds : List String
  tagNames : List String
  color : Option String
  type : String
  direction : String
  condition : String
  srcTable : String
  dstTable : String
  offset : Nat
deriving DecidableEq

/-- Decimal digit value of a character. -/
def digitVal (c : Char) : Option Nat :=
  if c.isDigit then some (c.toNat - 48) else none

/-- Hexadecimal digit value of a character. -/
def hexVal (c : Char) : Option Nat :=
  if c.isDigit then some (c.toNat - 48)
  else if 'a' ≤ c ∧ c ≤ 'f' then some (c.toNat - 87)
  else if 'A' ≤ c ∧ c ≤ 'F' then some (c.toNat - 55)
  else none

/-- Value of the maximal prefix of digits, `none` when that prefix is empty. -/
def parseDigits (f : Char → Option Nat) (base : Nat) (cs : List Char) : Option Nat :=
  let ds := cs.takeWhile (fun c => (f c).isSome)
  if ds.isEmpty then none
  else some (ds.foldl (fun acc c => acc * base + ((f c).getD 0)) 0)

/-- JS `parseInt(s)` with no radix argument: skip leading whitespace, accept
an optional sign, then either a `0x`/`0X` hexadecimal literal or a decimal
digit prefix; `none` embeds `NaN`.  (Exact integer arithmetic: faithful for
ids inside the double-precision safe range, which holds for this data.) -/
def parseIntJS (s : String) : Option Int :=
  let cs := s.data.dropWhile (fun c => c.isWhitespace)
  let signed : Int × List Char :=
    match cs with
    | '-' :: rest => (-1, rest)
    | '+' :: rest => (1, rest)
    | _ => (1, cs)
  match signed.2 with
  | '0' :: 'x' :: rest => (parseDigits hexVal 16 rest).map (fun v => signed.1 * v)
  | '0' :: 'X' :: rest => (parseDigits hexVal 16 rest).map (fun v => signed.1 * v)
  | _ => (parseDigits digitVal 10 signed.2).map (fun v => signed.1 * v)

/-- JS `String.prototype.split` with a single-character separator, over the
character list: splitting the empty string gives `[[]]`, and every
separator occurrence starts a new (possibly empty) part. -/
def splitOnChar (sep : Char) : List Char → List (List Char)
  | [] => [[]]
  | c :: rest =>
    match splitOnChar sep rest with
    | [] => [[]]
    | h :: t => if c = sep then [] :: h :: t else (c :: h) :: t

/-- `extractTableName`: `fullTableName.split('.')` and take the last part
(`parts[parts.length - 1]`; the split never returns an empty list, so the
default is never used). -/
def extractTableName (fullTableName : String) : String :=
  let parts := (splitOnChar '.' fullTableName.data).map (fun cs => String.mk cs)
  parts.getD (parts.length - 1) ""

/-- The fixed 20-entry palette of `assignColors`, verbatim from the source. -/
def colors : List String :=
  ["#FF6B6B", "#4ECDC4", "#45B7D1", "#96CEB4", "#FFEAA7",
   "#DDA0DD", "#98D8C8", "#F7DC6F", "#BB8FCE", "#85C1E9",
   "#F8C471", "#82E0AA", "#F1948A", "#85C1E9", "#D7BDE2",
   "#A9DFBF", "#F9E79F", "#D5A6BD", "#A3E4D7", "#FADBD8"]

/-- First-occurrence deduplication, mirroring `[...new Set(xs)]`. -/
def firstOccurAux (acc : List String) : List String → List String
  | [] => acc
  | x :: rest =>
    if x ∈ acc then firstOccurAux acc rest else firstOccurAux (acc ++ [x]) rest

/-- `[...new Set(xs)]`: distinct elements in first-occurrence order. -/
def firstOccur (l : List String) : List String := firstOccurAux [] l

/-- The `uniqueTags.forEach((tagName, index) => ...)` loop of `assignColors`.
`idx % colors.length` is always below `colors.length`, so the `getD`
default is never used. -/
def assignColorsAux (m : List (String × String)) (idx : Nat) :
    List String → List (String × String)
  | [] => m
  | name :: rest =>
    assignColorsAux (mset m name (colors.getD (idx % colors.length) "")) (idx + 1) rest

/-- `assignColors`: color every distinct `tag_name` (deleted tags included)
by its first-occurrence index into the palette, cycling mod 20. -/
def assignColors (tags : List TagRecord) : List (String × String) :=
  assignColorsAux [] 0 (firstOccur (tags.map (fun t => t.tag_name)))

/-- Create the node for a bare table name on first sight
(the `if (!nodeMap.has(...))` blocks of `buildNodes`). -/
def ensureNode (m : List (String × Node)) (tbl : String) : List (String × Node) :=
  match mget m tbl with
  | some _ => m
  | none => mset m tbl { id := tbl, name := tbl, type := "table", relations := [] }

/-- `nodeMap.get(tbl).relations.push(rid)`.  The `none` branch is
unreachable from `buildNodes` because `ensureNode` has run; in JS it would
be a `TypeError`. -/
def pushRelation (m : List (String × Node)) (tbl : String) (rid : Int) :
    List (String × Node) :=
  match mget m tbl with
  | some nd => mset m tbl { nd with relations := nd.relations ++ [rid] }
  | none => m

/-- Body of the `relations.forEach` loop of `buildNodes`, for bare table
names `srcTable` and `dstTable` and relation id `rid`. -/
def nodeStepCore (m : List (String × Node)) (srcTable dstTable : String) (rid : Int) :
    List (String × Node) :=
  pushRelation (pushRelation (ensureNode (ensureNode m srcTable) dstTable) srcTable rid) dstTable rid

/-- One `buildNodes` loop iteration on a relation record. -/
def buildNodesStep (m : List (String × Node)) (r : RelationRecord) :
    List (String × Node) :=
  nodeStepCore m (extractTableName r.src_table) (extractTableName r.dst_table) r.id

/-- `buildNodes`: one node per distinct bare table name, in first-sight
order (`Array.from(nodeMap.values())`). -/
def buildNodes (relations : List RelationRecord) : List Node :=
  (relations.foldl buildNodesStep []).map (fun p => p.2)

/-- `this.relations.forEach(r => this.relationMap.set(r.id, r))`. -/
def buildRelationMap (relations : List RelationRecord) : List (Int × RelationRecord) :=
  relations.foldl (fun m r => mset m r.id r) []

/-- The mutable state of the `buildLinks` loop: the `processedRelations`
set, the `edgeCounts` map and the `links` array. -/
structure BuildState where
  processed : List Int
  edgeCounts : List (String × Nat)
  links : List Edge
deriving DecidableEq

/-- The edge-count key of `buildLinks`, the template literal
`srcTable-dstTable` (a plain string concatenation: two distinct node pairs
can collide when a bare table name itself contains a dash). -/
def pairKey (a b : String) : String := a ++ "-" ++ b

/-- The offset computation of `buildLinks`: look the directed key up first,
then the reversed key, otherwise start a new counter at 1 with offset 0.
Returns the offset together with the updated `edgeCounts`. -/
def computeOffset (ec : List (String × Nat)) (srcTable dstTable : String) :
    Nat × List (String × Nat) :=
  match mget ec (pairKey srcTable dstTable) with
  | some c => (c, mset ec (pairKey srcTable dstTable) (c + 1))
  | none =>
    match mget ec (pairKey dstTable srcTable) with
    | some c => (c, mset ec (pairKey dstTable srcTable) (c + 1))
    | none => (0, mset ec (pairKey srcTable dstTable) 1)

/-- The link object literal of `buildLinks`, for the raw reference string
`rid` that triggered the edge, its parsed id `n`, the looked-up relation
and the two resolved node objects.  `relatedTags` is the
`this.tags.filter(...)` over the raw string (`relationId.toString()` is the
identity on a string).  It is non-empty on every call reachable from
`buildLinks` (the current tag passes its own filter); on an empty list JS
would throw reading `relatedTags[0].tag_name`, the embedding makes `color`
`none` via `head?`. -/
def mkLink (tags : List TagRecord) (colorMap : List (String × String))
    (rid : String) (n : Int) (relation : RelationRecord)
    (srcNode dstNode : Node) (offset : Nat) : Edge :=
  let relatedTags :=
    tags.filter (fun t => t.is_deleted = false ∧ rid ∈ t.relation_ids)
  { id := "relation-" ++ toString n
    source := srcNode
    target := dstNode
    relationId := n
    tagIds := relatedTags.map (fun t => t.tag_id)
    tagNames := relatedTags.map (fun t => t.tag_name)
    color := relatedTags.head?.bind (fun pt => mget colorMap pt.tag_name)
    type := relation.type
    direction := relation.direction
    condition := relation.condition
    srcTable := relation.src_table
    dstTable := relation.dst_table
    offset := offset }

/-- Body of the `relationIds.forEach` loop of `buildLinks` for one raw
reference string `rid`.  A reference parsing to `NaN` is never found in
`relationMap` and never added to `processedRelations`, so the `none` parse
simply skips, like the JS `warn`-and-return path. -/
def processRef (tags : List TagRecord) (relationMap : List (Int × RelationRecord))
    (nodes : List Node) (colorMap : List (String × String))
    (st : BuildState) (rid : String) : BuildState :=
  match parseIntJS rid with
  | none => st
  | some n =>
    if n ∈ st.processed then st
    else
      match mget relationMap n with
      | none => st
      | some relation =>
        match nodes.find? (fun nd => nd.id = extractTableName relation.src_table),
              nodes.find? (fun nd => nd.id = extractTableName relation.dst_table) with
        | some srcNode, some dstNode =>
          { processed := st.processed ++ [n]
            edgeCounts := (computeOffset st.edgeCounts (extractTableName relation.src_table)
              (extractTableName relation.dst_table)).2
            links := st.links ++ [mkLink tags colorMap rid n relation srcNode dstNode
              (computeOffset st.edgeCounts (extractTableName relation.src_table)
                (extractTableName relation.dst_table)).1] }
        | _, _ => st

/-- Body of the `this.tags.forEach` loop of `buildLinks`. -/
def processTag (tags : List TagRecord) (relationMap : List (Int × RelationRecord))
    (nodes : List Node) (colorMap : List (String × String))
    (st : BuildState) (t : TagRecord) : BuildState :=
  if t.is_deleted then st
  else t.relation_ids.foldl (processRef tags relationMap nodes colorMap) st

/-- `buildLinks`: one deduplicated edge per resolvable referenced relation. -/
def buildLinks (tags : List TagRecord) (relationMap : List (Int × RelationRecord))
    (nodes : List Node) (colorMap : List (String × String)) : List Edge :=
  (tags.foldl (processTag tags relationMap nodes colorMap)
    { processed := [], edgeCounts := [], links := [] }).links

/-- The full model built by `processData` (the instance fields of
`DataProcessor` after a successful load). -/
structure Model where
  tags : List TagRecord
  relations : List RelationRecord
  nodes : List Node
  links : List Edge
  colorMap : List (String × String)
  relationMap : List (Int × RelationRecord)
deriving DecidableEq

/-- `processData`: relation map, colors, nodes, then links. -/
def processData (tags : List TagRecord) (relations : List RelationRecord) : Model :=
  let relationMap := buildRelationMap relations
  let colorMap := assignColors tags
  let nodes := buildNodes relations
  { tags := tags
    relations := relations
    nodes := nodes
    links := buildLinks tags relationMap nodes colorMap
    colorMap := colorMap
    relationMap := relationMap }

/-- The `{nodes, links, colorMap}` object returned by `getAllData` and
`getDataByTenant`. -/
structure GraphData where
  nodes : List Node
  links : List Edge
  colorMap : List (String × String)
deriving DecidableEq

/-- JS truthiness of the `tenantId` argument: `undefined` (embedded as
`none`) and the empty string are falsy, every other string is truthy. -/
def isFalsy : Option String → Bool
  | none => true
  | some s => s = ""

/-- `getAllData`. -/
def getAllData (m : Model) : GraphData :=
  { nodes := m.nodes, links := m.links, colorMap := m.colorMap }

/-- The `relatedRelationIds` set of `getDataByTenant`: the union of the
parsed `relation_ids` of the non-deleted tags of the tenant.  An entry
parsing to `NaN` is added to the JS `Set` but can never match an integer
relation id nor a `relationMap` key, so the embedding drops it at
insertion. -/
def tenantRelationIds (m : Model) (tid : String) : List Int :=
  (m.tags.filter (fun t => t.is_deleted = false ∧ t.tenant_id = tid)).foldl
    (fun s t =>
      t.relation_ids.foldl (fun s rid =>
        match parseIntJS rid with
        | some n => sadd s n
        | none => s) s) []

/-- The `relatedTables` set of `getDataByTenant`: the bare table names
touched by the relations that resolve (`filteredRelations` keeps only the
`relationMap` hits). -/
def tenantTables (m : Model) (tid : String) : List String :=
  ((tenantRelationIds m tid).filterMap (fun i => mget m.relationMap i)).foldl
    (fun s r =>
      sadd (sadd s (extractTableName r.src_table)) (extractTableName r.dst_table)) []

/-- `getDataByTenant`. -/
def getDataByTenant (m : Model) (tenantId : Option String) : GraphData :=
  if isFalsy tenantId then getAllData m
  else
    { nodes := m.nodes.filter (fun nd => nd.id ∈ tenantTables m (tenantId.getD ""))
      links := m.links.filter (fun l => l.relationId ∈ tenantRelationIds m (tenantId.getD ""))
      colorMap := m.colorMap }

/-- `getAvailableTenants`: collect truthy `tenant_id` of non-deleted tags
into a set, then sort (JS default sort on strings is lexicographic; the
sorted duplicate-free list is order-canonical). -/
def getAvailableTenants (tags : List TagRecord) : List String :=
  List.insertionSort (fun a b => a ≤ b)
    (tags.foldl (fun s t =>
      if t.is_deleted = false ∧ t.tenant_id ≠ "" then sadd s t.tenant_id else s) [])

/-! ## Basic lemmas about the JS `Map`/`Set` embeddings -/

theorem mget_mset_self [DecidableEq κ] (m : List (κ × β)) (k : κ) (v : β) :
    mget (mset m k v) k = some v := by
  induction m with
  | nil => simp [mset, mget]
  | cons p rest ih =>
    by_cases h : p.1 = k
    · simp [mset, h, mget]
    · simp [mset, h, mget, ih]

theorem mget_mset_ne [DecidableEq κ] (m : List (κ × β)) (k k' : κ) (v : β)
    (h : k' ≠ k) : mget (mset m k v) k' = mget m k' := by
  have hkk : ¬(k = k') := fun he => h he.symm
  induction m with
  | nil => simp [mset, mget, hkk]
  | cons p rest ih =>
    by_cases hp : p.1 = k
    · have hp' : ¬(p.1 = k') := by rw [hp]; exact hkk
      simp [mset, hp, mget, hkk, hp']
    · simp [mset, hp, mget, ih]

theorem mget_mset_cases [DecidableEq κ] (m : List (κ × β)) (k k' : κ) (v c : β)
    (h : mget (mset m k v) k' = some c) : (k' = k ∧ c = v) ∨ mget m k' = some c := by
  by_cases hk : k' = k
  · left
    refine ⟨hk, ?_⟩
    rw [hk, mget_mset_self] at h
    exact (Option.some_injective _ h).symm
  · right
    rw [mget_mset_ne m k k' v hk] at h
    exact h

theorem mget_mset_isSome [DecidableEq κ] (m : List (κ × β)) (k k' : κ) (v : β)
    (h : (mget m k').isSome) : (mget (mset m k v) k').isSome := by
  by_cases hk : k' = k
  · rw [hk, mget_mset_self]; rfl
  · rw [mget_mset_ne m k k' v hk]; exact h

theorem mget_mem [DecidableEq κ] (m : List (κ × β)) (k : κ) (v : β)
    (h : mget m k = some v) : (k, v) ∈ m := by
  induction m with
  | nil => simp [mget] at h
  | cons p rest ih =>
    obtain ⟨p1, p2⟩ := p
    by_cases hp : p1 = k
    · simp only [mget] at h
      rw [if_pos hp] at h
      obtain rfl := Option.some.inj h
      rw [← hp]
      exact List.mem_cons_self _ _
    · simp only [mget] at h
      rw [if_neg hp] at h
      exact List.mem_cons_of_mem _ (ih h)

theorem mem_sadd [DecidableEq α] (s : List α) (a x : α) :
    x ∈ sadd s a ↔ x ∈ s ∨ x = a := by
  unfold sadd
  by_cases h : a ∈ s
  · simp only [h, if_pos]
    constructor
    · exact Or.inl
    · rintro (hx | rfl) <;> assumption
  · simp [h]

theorem sadd_nodup [DecidableEq α] (s : List α) (a : α) (h : s.Nodup) :
    (sadd s a).Nodup := by
  unfold sadd
  by_cases ha : a ∈ s
  · simpa [ha]
  · simp [ha, List.nodup_append, h]

/-- Fold recursion principle carrying membership of the folded element. -/
theorem foldl_rec {α σ : Type} (l : List α) (step : σ → α → σ) (P : σ → Prop)
    (h : ∀ s a, a ∈ l → P s → P (step s a)) (init : σ) (h0 : P init) :
    P (l.foldl step init) := by
  induction l generalizing init with
  | nil => exact h0
  | cons a rest ih =>
    exact ih (fun s x hx hp => h s x (List.mem_cons_of_mem _ hx) hp)
      (step init a) (h init a (List.mem_cons_self a rest) h0)

/-! ## Tenant filtering as a pure projection (claims C6, C9) -/

/-- Claim C6: `getDataByTenant` applied to an empty string and
`getDataByTenant` applied to an absent/undefined tenant id both return the
unfiltered full model, i.e. exactly the `getAllData` result. -/
theorem claim_c6 (m : Model) :
    getDataByTenant m none = getAllData m ∧ getDataByTenant m (some "") = getAllData m :=
  ⟨rfl, rfl⟩

/-- Claim C9: tenant filtering never mutates the base model.  The embedding
of `getDataByTenant` is a pure function of the model (the JS method assigns
no instance field), and the view it returns is a pure projection: its node
and edge sequences are sublists of the full ones — the very same
already-built objects, nothing recomputed — and the color map is returned
unchanged. -/
theorem claim_c9 (m : Model) (tenantId : Option String) :
    (getDataByTenant m tenantId).nodes.Sublist m.nodes ∧
    (getDataByTenant m tenantId).links.Sublist m.links ∧
    (getDataByTenant m tenantId).colorMap = m.colorMap := by
  unfold getDataByTenant
  split
  · exact ⟨List.Sublist.refl _, List.Sublist.refl _, rfl⟩
  · exact ⟨List.filter_sublist _, List.filter_sublist _, rfl⟩

/-! ## Color assignment (claims C7, C10) -/

theorem firstOccurAux_nodup (l : List String) (acc : List String) (h : acc.Nodup) :
    (firstOccurAux acc l).Nodup := by
  induction l generalizing acc with
  | nil => exact h
  | cons x rest ih =>
    unfold firstOccurAux
    by_cases hx : x ∈ acc
    · rw [if_pos hx]; exact ih _ h
    · rw [if_neg hx]
      exact ih _ (by simp [List.nodup_append, h, hx])

theorem firstOccur_nodup (l : List String) : (firstOccur l).Nodup :=
  firstOccurAux_nodup l [] List.nodup_nil

theorem assignColorsAux_get_not_mem (l : List String) (m : List (String × String))
    (idx : Nat) (name : String) (h : name ∉ l) :
    mget (assignColorsAux m idx l) name = mget m name := by
  induction l generalizing m idx with
  | nil => rfl
  | cons x rest ih =>
    have hx : name ≠ x := by rintro rfl; exact h (List.mem_cons_self _ _)
    rw [assignColorsAux, ih _ _ (fun hm => h (List.mem_cons_of_mem _ hm)),
      mget_mset_ne _ _ _ _ hx]

theorem assignColorsAux_get (l : List String) (m : List (String × String))
    (idx j : Nat) (name : String) (hnd : l.Nodup) (hj : l.get? j = some name) :
    mget (assignColorsAux m idx l) name =
      some (colors.getD ((idx + j) % colors.length) "") := by
  induction l generalizing m idx j with
  | nil => simp at hj
  | cons x rest ih =>
    obtain ⟨hx, hnd'⟩ := List.nodup_cons.mp hnd
    cases j with
    | zero =>
      simp only [List.get?_cons_zero, Option.some_inj] at hj
      subst hj
      rw [assignColorsAux, assignColorsAux_get_not_mem rest _ _ _ hx, mget_mset_self,
        Nat.add_zero]
    | succ j' =>
      simp only [List.get?_cons_succ] at hj
      rw [assignColorsAux]
      have heq : idx + 1 + j' = idx + (j' + 1) := by omega
      rw [ih _ (idx + 1) j' hnd' hj, heq]

theorem assignColors_get (tags : List TagRecord) (j : Nat) (name : String)
    (hj : (firstOccur (tags.map (fun t => t.tag_name))).get? j = some name) :
    mget (assignColors tags) name = some (colors.getD (j % colors.length) "") := by
  unfold assignColors
  have := assignColorsAux_get _ [] 0 j name (firstOccur_nodup _) hj
  simpa using this

/-- Claim C7: the color map sends the `j`-th distinct `tag_name` (in
first-occurrence order over the full tag list, soft-deleted tags included)
to the palette entry at index `j mod 20`; the map is a function of the tags
alone (identical no matter which relations are loaded, hence identical on a
re-run over identical input), and tenant filtering returns it unchanged. -/
theorem claim_c7 (tags : List TagRecord) (relations relations' : List RelationRecord)
    (tenantId : Option String) (j : Nat) (name : String)
    (hj : (firstOccur (tags.map (fun t => t.tag_name))).get? j = some name) :
    mget (processData tags relations).colorMap name = some (colors.getD (j % 20) "") ∧
    (processData tags relations).colorMap = (processData tags relations').colorMap ∧
    (getDataByTenant (processData tags relations) tenantId).colorMap =
      (processData tags relations).colorMap := by
  refine ⟨?_, rfl, ?_⟩
  · have h := assignColors_get tags j name hj
    have hl : colors.length = 20 := rfl
    rw [hl] at h
    exact h
  · unfold getDataByTenant
    split <;> rfl

/-- A deleted tag, showing that color assignment ignores `is_deleted`. -/
def tagDel : TagRecord :=
  { tag_id := "T9", tag_name := "zeta", src_dataset := "", dst_dataset := "",
    relation_ids := [], tenant_id := "", is_deleted := true }

/-- A sample relation record. -/
def relSample : RelationRecord :=
  { id := 1, src_table := "s.orders", dst_table := "s.customers",
    type := "ONE_TO_MANY", direction := "fwd", condition := "c" }

theorem claim_c7_witness :
    mget (processData [tagDel] []).colorMap "zeta" = some (colors.getD (0 % 20) "") ∧
    (processData [tagDel] []).colorMap = (processData [tagDel] [relSample]).colorMap ∧
    (getDataByTenant (processData [tagDel] []) (some "x")).colorMap =
      (processData [tagDel] []).colorMap :=
  claim_c7 [tagDel] [] [relSample] (some "x") 0 "zeta" (by decide)

/-- Claim C10: the palette has the duplicate entry `#85C1E9` at 0-based
indices 9 and 13, so whenever at least 14 distinct tag names occur, the
10th and the 14th distinct names (in first-occurrence order) are different
names yet receive the same color. -/
theorem claim_c10 (tags : List TagRecord) (relations : List RelationRecord)
    (h : 14 ≤ (firstOccur (tags.map (fun t => t.tag_name))).length) :
    colors.get? 9 = some "#85C1E9" ∧ colors.get? 13 = some "#85C1E9" ∧
    ∃ n9 n13 : String,
      (firstOccur (tags.map (fun t => t.tag_name))).get? 9 = some n9 ∧
      (firstOccur (tags.map (fun t => t.tag_name))).get? 13 = some n13 ∧
      n9 ≠ n13 ∧
      mget (processData tags relations).colorMap n9 = some "#85C1E9" ∧
      mget (processData tags relations).colorMap n13 = some "#85C1E9" := by
  refine ⟨rfl, rfl, ?_⟩
  have h9 : 9 < (firstOccur (tags.map (fun t => t.tag_name))).length := by omega
  have h13 : 13 < (firstOccur (tags.map (fun t => t.tag_name))).length := by omega
  refine ⟨(firstOccur (tags.map (fun t => t.tag_name))).get ⟨9, h9⟩,
          (firstOccur (tags.map (fun t => t.tag_name))).get ⟨13, h13⟩,
          (List.get?_eq_get h9), (List.get?_eq_get h13), ?_, ?_, ?_⟩
  · intro heq
    have h2 : (firstOccur (tags.map (fun t => t.tag_name))).get? 9 =
        (firstOccur (tags.map (fun t => t.tag_name))).get? 13 := by
      rw [List.get?_eq_get h9, List.get?_eq_get h13, heq]
    have h3 := List.get?_inj h9 (firstOccur_nodup _) h2
    omega
  · have := assignColors_get tags 9 _ (List.get?_eq_get h9)
    exact this
  · have := assignColors_get tags 13 _ (List.get?_eq_get h13)
    exact this

/-- Fourteen tags with fourteen distinct names. -/
def mkTag (name : String) : TagRecord :=
  { tag_id := "", tag_name := name, src_dataset := "", dst_dataset := "",
    relation_ids := [], tenant_id := "", is_deleted := false }

def tags14 : List TagRecord :=
  ["n01", "n02", "n03", "n04", "n05", "n06", "n07",
   "n08", "n09", "n10", "n11", "n12", "n13", "n14"].map mkTag

theorem claim_c10_witness :
    colors.get? 9 = some "#85C1E9" ∧ colors.get? 13 = some "#85C1E9" ∧
    ∃ n9 n13 : String,
      (firstOccur (tags14.map (fun t => t.tag_name))).get? 9 = some n9 ∧
      (firstOccur (tags14.map (fun t => t.tag_name))).get? 13 = some n13 ∧
      n9 ≠ n13 ∧
      mget (processData tags14 []).colorMap n9 = some "#85C1E9" ∧
      mget (processData tags14 []).colorMap n13 = some "#85C1E9" :=
  claim_c10 tags14 [] (by decide)

/-! ## Available tenants (claim C8) -/

theorem tenants_fold_mem (tags : List TagRecord) (s : List String) (x : String) :
    (x ∈ tags.foldl (fun s t =>
        if t.is_deleted = false ∧ t.tenant_id ≠ "" then sadd s t.tenant_id else s) s) ↔
      x ∈ s ∨ ∃ t ∈ tags, t.is_deleted = false ∧ t.tenant_id ≠ "" ∧ t.tenant_id = x := by
  induction tags generalizing s with
  | nil => simp
  | cons t rest ih =>
    rw [List.foldl_cons, ih]
    by_cases hc : t.is_deleted = false ∧ t.tenant_id ≠ ""
    · rw [if_pos hc, mem_sadd]
      constructor
      · rintro ((hs | rfl) | hr)
        · exact Or.inl hs
        · exact Or.inr ⟨t, List.mem_cons_self _ _, hc.1, hc.2, rfl⟩
        · obtain ⟨u, hu, hd⟩ := hr
          exact Or.inr ⟨u, List.mem_cons_of_mem _ hu, hd⟩
      · rintro (hs | ⟨u, hu, hd⟩)
        · exact Or.inl (Or.inl hs)
        · rcases List.mem_cons.mp hu with rfl | hu'
          · exact Or.inl (Or.inr hd.2.2.symm)
          · exact Or.inr ⟨u, hu', hd⟩
    · rw [if_neg hc]
      constructor
      · rintro (hs | ⟨u, hu, hd⟩)
        · exact Or.inl hs
        · exact Or.inr ⟨u, List.mem_cons_of_mem _ hu, hd⟩
      · rintro (hs | ⟨u, hu, hd⟩)
        · exact Or.inl hs
        · rcases List.mem_cons.mp hu with rfl | hu'
          · exact absurd ⟨hd.1, hd.2.1⟩ hc
          · exact Or.inr ⟨u, hu', hd⟩

theorem tenants_fold_nodup (tags : List TagRecord) :
    (tags.foldl (fun s t =>
        if t.is_deleted = false ∧ t.tenant_id ≠ "" then sadd s t.tenant_id else s)
      []).Nodup := by
  refine foldl_rec tags _ List.Nodup ?_ [] List.nodup_nil
  intro s t _ hs
  by_cases hc : t.is_deleted = false ∧ t.tenant_id ≠ ""
  · rw [if_pos hc]; exact sadd_nodup _ _ hs
  · rw [if_neg hc]; exact hs

/-- A non-deleted tag whose `tenant_id` is the empty string. -/
def tagEmptyTenant : TagRecord :=
  { tag_id := "T1", tag_name := "a", src_dataset := "", dst_dataset := "",
    relation_ids := [], tenant_id := "", is_deleted := false }

/-- Claim C8 counterexample: the empty string is a `tenant_id` value that
occurs on a non-deleted tag, yet `getAvailableTenants` drops it, because
the source additionally requires `tag.tenant_id` to be truthy.  The claim
would require the result `[""]` here; the code returns `[]`. -/
theorem claim_c8_counterexample :
    tagEmptyTenant.is_deleted = false ∧ tagEmptyTenant.tenant_id = "" ∧
    getAvailableTenants [tagEmptyTenant] = [] :=
  ⟨rfl, rfl, rfl⟩

/-- Claim C8 as amended: the tenants query returns exactly the distinct
truthy (non-empty) `tenant_id` values occurring on non-deleted tags,
without duplicates and sorted ascending, for every input tag sequence. -/
theorem claim_c8_amended (tags : List TagRecord) :
    (getAvailableTenants tags).Sorted (fun a b : String => a ≤ b) ∧
    (getAvailableTenants tags).Nodup ∧
    ∀ x : String, x ∈ getAvailableTenants tags ↔
      x ≠ "" ∧ ∃ t ∈ tags, t.is_deleted = false ∧ t.tenant_id = x := by
  unfold getAvailableTenants
  refine ⟨List.sorted_insertionSort _ _, ?_, ?_⟩
  · exact ((List.perm_insertionSort _ _).nodup_iff).mpr (tenants_fold_nodup tags)
  · intro x
    rw [(List.perm_insertionSort _ _).mem_iff, tenants_fold_mem]
    constructor
    · rintro (hx | ⟨t, ht, hd, hne, rfl⟩)
      · simp at hx
      · exact ⟨hne, t, ht, hd, rfl⟩
    · rintro ⟨hne, t, ht, hd, rfl⟩
      exact Or.inr ⟨t, ht, hd, hne, rfl⟩

/-! ## Error behavior on raw input (claim C4)

A relation record as it arrives from JSON need not carry all fields.  The
raw layer keeps the two table fields optional (`none` embeds an absent /
`undefined` field, the kind of malformedness the claim is about) and makes
the JS exceptions explicit in `Except String`: accessing `.split` on an
absent field, or indexing `[0]` into an empty array and dereferencing, is
a thrown `TypeError`. -/

structure RawRelation where
  id : Int
  src_table : Option String
  dst_table : Option String
  type : String
  direction : String
  condition : String
deriving DecidableEq

def undefinedSplitError : String :=
  "TypeError: cannot read property split of undefined"

def undefinedTagError : String :=
  "TypeError: cannot read property tag_name of undefined"

/-- One `buildNodes` iteration on a raw record; `extractTableName` on an
absent field throws. -/
def buildNodesStepE (m : List (String × Node)) (r : RawRelation) :
    Except String (List (String × Node)) :=
  match r.src_table with
  | none => Except.error undefinedSplitError
  | some fullSrc =>
    match r.dst_table with
    | none => Except.error undefinedSplitError
    | some fullDst =>
      Except.ok (nodeStepCore m (extractTableName fullSrc) (extractTableName fullDst) r.id)

def buildNodesE (relations : List RawRelation) : Except String (List Node) := do
  let m ← relations.foldlM buildNodesStepE []
  pure (m.map (fun p => p.2))

/-- `processRef` over raw relations, with the JS throw points explicit. -/
def processRefE (tags : List TagRecord) (relationMap : List (Int × RawRelation))
    (nodes : List Node) (colorMap : List (String × String))
    (st : BuildState) (rid : String) : Except String BuildState :=
  match parseIntJS rid with
  | none => Except.ok st
  | some n =>
    if n ∈ st.processed then Except.ok st
    else
      match mget relationMap n with
      | none => Except.ok st
      | some relation =>
        match relation.src_table with
        | none => Except.error undefinedSplitError
        | some fullSrc =>
          match relation.dst_table with
          | none => Except.error undefinedSplitError
          | some fullDst =>
            let srcTable := extractTableName fullSrc
            let dstTable := extractTableName fullDst
            match nodes.find? (fun nd => nd.id = srcTable),
                  nodes.find? (fun nd => nd.id = dstTable) with
            | some srcNode, some dstNode =>
              let oc := computeOffset st.edgeCounts srcTable dstTable
              let relatedTags :=
                tags.filter (fun t => t.is_deleted = false ∧ rid ∈ t.relation_ids)
              match relatedTags.head? with
              | none => Except.error undefinedTagError
              | some primaryTag =>
                Except.ok { processed := st.processed ++ [n]
                            edgeCounts := oc.2
                            links := st.links ++ [{
                              id := "relation-" ++ toString n
                              source := srcNode
                              target := dstNode
                              relationId := n
                              tagIds := relatedTags.map (fun t => t.tag_id)
                              tagNames := relatedTags.map (fun t => t.tag_name)
                              color := mget colorMap primaryTag.tag_name
                              type := relation.type
                              direction := relation.direction
                              condition := relation.condition
                              srcTable := fullSrc
                              dstTable := fullDst
                              offset := oc.1 }] }
            | _, _ => Except.ok st

def processTagE (tags : List TagRecord) (relationMap : List (Int × RawRelation))
    (nodes : List Node) (colorMap : List (String × String))
    (st : BuildState) (t : TagRecord) : Except String BuildState :=
  if t.is_deleted then Except.ok st
  else t.relation_ids.foldlM (processRefE tags relationMap nodes colorMap) st

def buildLinksE (tags : List TagRecord) (relationMap : List (Int × RawRelation))
    (nodes : List Node) (colorMap : List (String × String)) :
    Except String (List Edge) := do
  let st ← tags.foldlM (processTagE tags relationMap nodes colorMap)
    { processed := [], edgeCounts := [], links := [] }
  pure st.links

/-- `processData` over raw relations: the `(nodes, links)` the builder
leaves behind, or the exception it throws. -/
def processDataE (tags : List TagRecord) (relations : List RawRelation) :
    Except String (List Node × List Edge) := do
  let relationMap := relations.foldl (fun m r => mset m r.id r) []
  let colorMap := assignColors tags
  let nodes ← buildNodesE relations
  let links ← buildLinksE tags relationMap nodes colorMap
  pure (nodes, links)

/-- A malformed relation record: its `src_table` field is absent. -/
def badRelation : RawRelation :=
  { id := 1, src_table := none, dst_table := some "s.t",
    type := "", direction := "", condition := "" }

/-- Claim C4 counterexample: on input with an empty tag sequence and a
malformed relation record the builder throws a `TypeError` (from
`extractTableName` reading `.split` of `undefined`) instead of logging and
leaving an empty-but-valid model. -/
theorem claim_c4_counterexample :
    processDataE [] [badRelation] = Except.error undefinedSplitError := rfl

theorem processRefE_empty_map (tags : List TagRecord) (nodes : List Node)
    (colorMap : List (String × String)) (st : BuildState) (rid : String) :
    processRefE tags [] nodes colorMap st rid = Except.ok st := by
  unfold processRefE
  cases parseIntJS rid with
  | none => rfl
  | some n =>
    by_cases h : n ∈ st.processed
    · simp [h]
    · simp [h, mget]

theorem refs_foldlM_empty (tags : List TagRecord) (nodes : List Node)
    (colorMap : List (String × String)) (rids : List String) (st : BuildState) :
    rids.foldlM (processRefE tags [] nodes colorMap) st = Except.ok st := by
  induction rids with
  | nil => rfl
  | cons r rest ih =>
    rw [List.foldlM_cons, processRefE_empty_map]
    exact ih

theorem tags_foldlM_empty (tags allTags : List TagRecord) (nodes : List Node)
    (colorMap : List (String × String)) (st : BuildState) :
    tags.foldlM (processTagE allTags [] nodes colorMap) st = Except.ok st := by
  induction tags generalizing st with
  | nil => rfl
  | cons t rest ih =>
    have hstep : processTagE allTags [] nodes colorMap st t = Except.ok st := by
      unfold processTagE
      split
      · rfl
      · exact refs_foldlM_empty _ _ _ _ _
    rw [List.foldlM_cons, hstep]
    exact ih st

/-- Claim C4 as amended: with an empty relation dataset the builder does
not throw for any tag input and leaves the model empty-but-valid (empty
node and edge sequences); in particular both inputs empty is fine.  (The
original claim fails in general: malformed records throw — see the
counterexample — and with empty tags but non-empty relations the node
sequence is non-empty.) -/
theorem claim_c4_amended (tags : List TagRecord) :
    processDataE tags [] = Except.ok ([], []) := by
  unfold processDataE buildLinksE
  simp [buildNodesE, tags_foldlM_empty]

/-! ## Relation map and node map lemmas -/

theorem mem_mset [DecidableEq κ] (m : List (κ × β)) (k : κ) (v : β) (q : κ × β)
    (h : q ∈ mset m k v) : q = (k, v) ∨ q ∈ m := by
  induction m with
  | nil => simp [mset] at h; exact Or.inl h
  | cons p rest ih =>
    by_cases hp : p.1 = k
    · rw [mset, if_pos hp] at h
      rcases List.mem_cons.mp h with rfl | hq
      · exact Or.inl rfl
      · exact Or.inr (List.mem_cons_of_mem _ hq)
    · rw [mset, if_neg hp] at h
      rcases List.mem_cons.mp h with rfl | hq
      · exact Or.inr (List.mem_cons_self _ _)
      · rcases ih hq with h1 | h2
        · exact Or.inl h1
        · exact Or.inr (List.mem_cons_of_mem _ h2)

theorem relationMap_fold_sound (l : List RelationRecord) (m : List (Int × RelationRecord))
    (k : Int) (r : RelationRecord)
    (h : mget (l.foldl (fun m r => mset m r.id r) m) k = some r) :
    mget m k = some r ∨ r ∈ l := by
  induction l generalizing m with
  | nil => exact Or.inl h
  | cons x rest ih =>
    rw [List.foldl_cons] at h
    rcases ih _ h with h1 | h2
    · rcases mget_mset_cases _ _ _ _ _ h1 with ⟨_, rfl⟩ | h3
      · exact Or.inr (List.mem_cons_self _ _)
      · exact Or.inl h3
    · exact Or.inr (List.mem_cons_of_mem _ h2)

/-- A relation looked up in the relation map is one of the loaded records. -/
theorem buildRelationMap_sound (relations : List RelationRecord) (k : Int)
    (r : RelationRecord) (h : mget (buildRelationMap relations) k = some r) :
    r ∈ relations := by
  rcases relationMap_fold_sound relations [] k r h with h1 | h2
  · simp [mget] at h1
  · exact h2

theorem relationMap_fold_isSome (l : List RelationRecord) (m : List (Int × RelationRecord))
    (k : Int) (h : (mget m k).isSome) :
    (mget (l.foldl (fun m r => mset m r.id r) m) k).isSome :=
  foldl_rec l _ (fun m => (mget m k).isSome)
    (fun m r _ hm => mget_mset_isSome _ _ _ _ hm) m h

theorem relationMap_fold_mem_isSome (l : List RelationRecord)
    (m : List (Int × RelationRecord)) (k : Int) (r : RelationRecord)
    (hr : r ∈ l) (hid : r.id = k) :
    (mget (l.foldl (fun m r => mset m r.id r) m) k).isSome := by
  induction l generalizing m with
  | nil => simp at hr
  | cons x rest ih =>
    rw [List.foldl_cons]
    rcases List.mem_cons.mp hr with rfl | hr'
    · exact relationMap_fold_isSome rest _ k (by rw [← hid, mget_mset_self]; rfl)
    · exact ih _ hr'

/-- Every loaded relation id is a key of the relation map. -/
theorem buildRelationMap_complete (relations : List RelationRecord) (k : Int)
    (h : ∃ r ∈ relations, r.id = k) :
    (mget (buildRelationMap relations) k).isSome := by
  obtain ⟨r, hr, hid⟩ := h
  exact relationMap_fold_mem_isSome relations [] k r hr hid

/-- Keys of the node map are the node ids of their values. -/
def NodesKeyed (m : List (String × Node)) : Prop := ∀ p ∈ m, p.2.id = p.1

theorem ensureNode_keyed (m : List (String × Node)) (tbl : String)
    (h : NodesKeyed m) : NodesKeyed (ensureNode m tbl) := by
  unfold ensureNode
  cases mget m tbl with
  | some _ => exact h
  | none =>
    intro p hp
    rcases mem_mset _ _ _ _ hp with rfl | hpm
    · rfl
    · exact h p hpm

theorem pushRelation_keyed (m : List (String × Node)) (tbl : String) (rid : Int)
    (h : NodesKeyed m) : NodesKeyed (pushRelation m tbl rid) := by
  unfold pushRelation
  cases hg : mget m tbl with
  | none => exact h
  | some nd =>
    intro p hp
    rcases mem_mset _ _ _ _ hp with rfl | hpm
    · have h2 : nd.id = tbl := h (tbl, nd) (mget_mem _ _ _ hg)
      exact h2
    · exact h p hpm

theorem nodeStepCore_keyed (m : List (String × Node)) (s d : String) (rid : Int)
    (h : NodesKeyed m) : NodesKeyed (nodeStepCore m s d rid) :=
  pushRelation_keyed _ _ _ (pushRelation_keyed _ _ _
    (ensureNode_keyed _ _ (ensureNode_keyed _ _ h)))

theorem ensureNode_isSome_self (m : List (String × Node)) (tbl : String) :
    (mget (ensureNode m tbl) tbl).isSome := by
  unfold ensureNode
  cases hg : mget m tbl with
  | some nd => rw [hg]; rfl
  | none => rw [mget_mset_self]; rfl

theorem ensureNode_isSome_mono (m : List (String × Node)) (tbl k : String)
    (h : (mget m k).isSome) : (mget (ensureNode m tbl) k).isSome := by
  unfold ensureNode
  cases mget m tbl with
  | some _ => exact h
  | none => exact mget_mset_isSome _ _ _ _ h

theorem pushRelation_isSome_mono (m : List (String × Node)) (tbl k : String) (rid : Int)
    (h : (mget m k).isSome) : (mget (pushRelation m tbl rid) k).isSome := by
  unfold pushRelation
  cases mget m tbl with
  | none => exact h
  | some nd => exact mget_mset_isSome _ _ _ _ h

theorem nodeStepCore_isSome_mono (m : List (String × Node)) (s d k : String) (rid : Int)
    (h : (mget m k).isSome) : (mget (nodeStepCore m s d rid) k).isSome :=
  pushRelation_isSome_mono _ _ _ _ (pushRelation_isSome_mono _ _ _ _
    (ensureNode_isSome_mono _ _ _ (ensureNode_isSome_mono _ _ _ h)))

theorem nodeStepCore_covers (m : List (String × Node)) (s d : String) (rid : Int) :
    (mget (nodeStepCore m s d rid) s).isSome ∧ (mget (nodeStepCore m s d rid) d).isSome := by
  constructor
  · exact pushRelation_isSome_mono _ _ _ _ (pushRelation_isSome_mono _ _ _ _
      (ensureNode_isSome_mono _ _ _ (ensureNode_isSome_self m s)))
  · exact pushRelation_isSome_mono _ _ _ _ (pushRelation_isSome_mono _ _ _ _
      (ensureNode_isSome_self _ d))

theorem nodes_fold_isSome_mono (l : List RelationRecord) (m : List (String × Node))
    (k : String) (h : (mget m k).isSome) :
    (mget (l.foldl buildNodesStep m) k).isSome :=
  foldl_rec l _ (fun m => (mget m k).isSome)
    (fun m r _ hm => nodeStepCore_isSome_mono _ _ _ _ _ hm) m h

theorem nodes_fold_covers (l : List RelationRecord) (m : List (String × Node))
    (r : RelationRecord) (hr : r ∈ l) :
    (mget (l.foldl buildNodesStep m) (extractTableName r.src_table)).isSome ∧
    (mget (l.foldl buildNodesStep m) (extractTableName r.dst_table)).isSome := by
  induction l generalizing m with
  | nil => simp at hr
  | cons x rest ih =>
    rw [List.foldl_cons]
    rcases List.mem_cons.mp hr with rfl | hr'
    · have hc := nodeStepCore_covers m (extractTableName r.src_table)
        (extractTableName r.dst_table) r.id
      exact ⟨nodes_fold_isSome_mono rest _ _ hc.1, nodes_fold_isSome_mono rest _ _ hc.2⟩
    · exact ih _ hr'

theorem nodes_fold_keyed (l : List RelationRecord) :
    NodesKeyed (l.foldl buildNodesStep []) :=
  foldl_rec l _ NodesKeyed
    (fun m r _ hm => nodeStepCore_keyed _ _ _ _ hm) [] (by intro p hp; simp at hp)

/-- Every bare table name of a loaded relation resolves in `buildNodes`
output via `Array.prototype.find`. -/
theorem buildNodes_find_isSome (relations : List RelationRecord) (r : RelationRecord)
    (hr : r ∈ relations) :
    ((buildNodes relations).find? (fun nd => nd.id = extractTableName r.src_table)).isSome ∧
    ((buildNodes relations).find? (fun nd => nd.id = extractTableName r.dst_table)).isSome := by
  have hcov := nodes_fold_covers relations [] r hr
  have hkey := nodes_fold_keyed relations
  constructor
  · obtain ⟨nd, hnd⟩ := Option.isSome_iff_exists.mp hcov.1
    have hmem := mget_mem _ _ _ hnd
    have hid : nd.id = extractTableName r.src_table := hkey _ hmem
    rw [List.find?_isSome]
    exact ⟨nd, List.mem_map_of_mem (fun p => p.2) hmem, by simp [hid]⟩
  · obtain ⟨nd, hnd⟩ := Option.isSome_iff_exists.mp hcov.2
    have hmem := mget_mem _ _ _ hnd
    have hid : nd.id = extractTableName r.dst_table := hkey _ hmem
    rw [List.find?_isSome]
    exact ⟨nd, List.mem_map_of_mem (fun p => p.2) hmem, by simp [hid]⟩

/-! ## Characterization of one `buildLinks` step -/

/-- One `processRef` call either leaves the state unchanged or, when the
reference parses, is not yet processed and fully resolves, appends exactly
one link and marks the id processed. -/
theorem processRef_cases (tags : List TagRecord)
    (relationMap : List (Int × RelationRecord)) (nodes : List Node)
    (colorMap : List (String × String)) (st : BuildState) (rid : String) :
    processRef tags relationMap nodes colorMap st rid = st ∨
    ∃ (n : Int) (relation : RelationRecord) (srcNode dstNode : Node),
      parseIntJS rid = some n ∧ n ∉ st.processed ∧
      mget relationMap n = some relation ∧
      nodes.find? (fun nd => nd.id = extractTableName relation.src_table) = some srcNode ∧
      nodes.find? (fun nd => nd.id = extractTableName relation.dst_table) = some dstNode ∧
      processRef tags relationMap nodes colorMap st rid =
        { processed := st.processed ++ [n]
          edgeCounts := (computeOffset st.edgeCounts (extractTableName relation.src_table)
            (extractTableName relation.dst_table)).2
          links := st.links ++ [mkLink tags colorMap rid n relation srcNode dstNode
            (computeOffset st.edgeCounts (extractTableName relation.src_table)
              (extractTableName relation.dst_table)).1] } := by
  unfold processRef
  split
  · exact Or.inl rfl
  next n heq =>
    split
    next hmem => exact Or.inl rfl
    next hmem =>
      split
      · exact Or.inl rfl
      next relation hr =>
        split
        next srcNode dstNode hfs hfd =>
          exact Or.inr ⟨n, relation, srcNode, dstNode, heq, hmem, hr, hfs, hfd, rfl⟩
        all_goals exact Or.inl rfl

/-- `processRef` never removes ids from the processed set. -/
theorem processRef_processed_mono (tags : List TagRecord)
    (relationMap : List (Int × RelationRecord)) (nodes : List Node)
    (colorMap : List (String × String)) (st : BuildState) (rid : String) (x : Int)
    (hx : x ∈ st.processed) :
    x ∈ (processRef tags relationMap nodes colorMap st rid).processed := by
  rcases processRef_cases tags relationMap nodes colorMap st rid with heq |
    ⟨n, relation, srcNode, dstNode, _, _, _, _, _, heq⟩ <;>
    rw [heq]
  · exact hx
  · exact List.mem_append_left _ hx

/-- `processRef` never removes links. -/
theorem processRef_links_mono (tags : List TagRecord)
    (relationMap : List (Int × RelationRecord)) (nodes : List Node)
    (colorMap : List (String × String)) (st : BuildState) (rid : String) (e : Edge)
    (he : e ∈ st.links) :
    e ∈ (processRef tags relationMap nodes colorMap st rid).links := by
  rcases processRef_cases tags relationMap nodes colorMap st rid with heq |
    ⟨n, relation, srcNode, dstNode, _, _, _, _, _, heq⟩ <;>
    rw [heq]
  · exact he
  · exact List.mem_append_left _ he

/-- When the reference resolves (`parseInt` succeeds, the relation map has
the id, both endpoints resolve to nodes), `processRef` leaves the id
processed. -/
theorem processRef_hits (tags : List TagRecord)
    (relationMap : List (Int × RelationRecord)) (nodes : List Node)
    (colorMap : List (String × String)) (st : BuildState) (rid : String) (n : Int)
    (relation : RelationRecord)
    (hp : parseIntJS rid = some n)
    (hr : mget relationMap n = some relation)
    (hfs : (nodes.find? (fun nd => nd.id = extractTableName relation.src_table)).isSome)
    (hfd : (nodes.find? (fun nd => nd.id = extractTableName relation.dst_table)).isSome) :
    n ∈ (processRef tags relationMap nodes colorMap st rid).processed := by
  unfold processRef
  split
  next heqp => rw [heqp] at hp; exact absurd hp (by simp)
  next n1 heqp =>
    have hn : n1 = n := by rw [hp] at heqp; exact (Option.some_inj.mp heqp).symm
    subst hn
    split
    next hmem => exact hmem
    next hmem =>
      split
      next heqr => rw [hr] at heqr; exact absurd heqr (by simp)
      next relation1 heqr =>
        have hrel : relation1 = relation := by
          rw [hr] at heqr; exact (Option.some_inj.mp heqr).symm
        subst hrel
        split
        next srcNode dstNode h1 h2 =>
          exact List.mem_append_right _ (List.mem_singleton.mpr rfl)
        next h1 h2 hcatch =>
          obtain ⟨srcNode, hs⟩ := Option.isSome_iff_exists.mp hfs
          obtain ⟨dstNode, hd⟩ := Option.isSome_iff_exists.mp hfd
          exact absurd hd (hcatch srcNode dstNode hs)

/-! ## Field lemmas for the link literal -/

theorem mkLink_relationId (tags : List TagRecord) (colorMap : List (String × String))
    (rid : String) (n : Int) (relation : RelationRecord) (srcNode dstNode : Node)
    (off : Nat) : (mkLink tags colorMap rid n relation srcNode dstNode off).relationId = n := rfl

theorem mkLink_id (tags : List TagRecord) (colorMap : List (String × String))
    (rid : String) (n : Int) (relation : RelationRecord) (srcNode dstNode : Node)
    (off : Nat) :
    (mkLink tags colorMap rid n relation srcNode dstNode off).id =
      "relation-" ++ toString n := rfl

theorem mkLink_source (tags : List TagRecord) (colorMap : List (String × String))
    (rid : String) (n : Int) (relation : RelationRecord) (srcNode dstNode : Node)
    (off : Nat) : (mkLink tags colorMap rid n relation srcNode dstNode off).source = srcNode := rfl

theorem mkLink_target (tags : List TagRecord) (colorMap : List (String × String))
    (rid : String) (n : Int) (relation : RelationRecord) (srcNode dstNode : Node)
    (off : Nat) : (mkLink tags colorMap rid n relation srcNode dstNode off).target = dstNode := rfl

theorem mkLink_tagNames (tags : List TagRecord) (colorMap : List (String × String))
    (rid : String) (n : Int) (relation : RelationRecord) (srcNode dstNode : Node)
    (off : Nat) :
    (mkLink tags colorMap rid n relation srcNode dstNode off).tagNames =
      (tags.filter (fun t => t.is_deleted = false ∧ rid ∈ t.relation_ids)).map
        (fun t => t.tag_name) := rfl

theorem mkLink_tagIds (tags : List TagRecord) (colorMap : List (String × String))
    (rid : String) (n : Int) (relation : RelationRecord) (srcNode dstNode : Node)
    (off : Nat) :
    (mkLink tags colorMap rid n relation srcNode dstNode off).tagIds =
      (tags.filter (fun t => t.is_deleted = false ∧ rid ∈ t.relation_ids)).map
        (fun t => t.tag_id) := rfl

theorem mkLink_color (tags : List TagRecord) (colorMap : List (String × String))
    (rid : String) (n : Int) (relation : RelationRecord) (srcNode dstNode : Node)
    (off : Nat) :
    (mkLink tags colorMap rid n relation srcNode dstNode off).color =
      ((tags.filter (fun t => t.is_deleted = false ∧ rid ∈ t.relation_ids)).head?).bind
        (fun pt => mget colorMap pt.tag_name) := rfl

theorem mkLink_offset (tags : List TagRecord) (colorMap : List (String × String))
    (rid : String) (n : Int) (relation : RelationRecord) (srcNode dstNode : Node)
    (off : Nat) : (mkLink tags colorMap rid n relation srcNode dstNode off).offset = off := rfl

/-! ## Fold-level lemmas for `buildLinks` -/

theorem refs_fold_processed_mono (tags : List TagRecord)
    (relationMap : List (Int × RelationRecord)) (nodes : List Node)
    (colorMap : List (String × String)) (rids : List String) (st : BuildState)
    (x : Int) (hx : x ∈ st.processed) :
    x ∈ (rids.foldl (processRef tags relationMap nodes colorMap) st).processed :=
  foldl_rec rids _ (fun s => x ∈ s.processed)
    (fun s rid _ h => processRef_processed_mono tags relationMap nodes colorMap s rid x h)
    st hx

theorem processTag_processed_mono (tags : List TagRecord)
    (relationMap : List (Int × RelationRecord)) (nodes : List Node)
    (colorMap : List (String × String)) (st : BuildState) (t : TagRecord)
    (x : Int) (hx : x ∈ st.processed) :
    x ∈ (processTag tags relationMap nodes colorMap st t).processed := by
  unfold processTag
  split
  · exact hx
  · exact refs_fold_processed_mono tags relationMap nodes colorMap _ st x hx

theorem tags_fold_processed_mono (tags : List TagRecord)
    (relationMap : List (Int × RelationRecord)) (nodes : List Node)
    (colorMap : List (String × String)) (ts : List TagRecord) (st : BuildState)
    (x : Int) (hx : x ∈ st.processed) :
    x ∈ (ts.foldl (processTag tags relationMap nodes colorMap) st).processed :=
  foldl_rec ts _ (fun s => x ∈ s.processed)
    (fun s t _ h => processTag_processed_mono tags relationMap nodes colorMap s t x h)
    st hx

theorem refs_fold_hits (tags : List TagRecord)
    (relationMap : List (Int × RelationRecord)) (nodes : List Node)
    (colorMap : List (String × String)) (rids : List String) (st : BuildState)
    (rid : String) (hin : rid ∈ rids) (n : Int) (relation : RelationRecord)
    (hp : parseIntJS rid = some n)
    (hr : mget relationMap n = some relation)
    (hfs : (nodes.find? (fun nd => nd.id = extractTableName relation.src_table)).isSome)
    (hfd : (nodes.find? (fun nd => nd.id = extractTableName relation.dst_table)).isSome) :
    n ∈ (rids.foldl (processRef tags relationMap nodes colorMap) st).processed := by
  induction rids generalizing st with
  | nil => simp at hin
  | cons r rest ih =>
    rw [List.foldl_cons]
    rcases List.mem_cons.mp hin with rfl | hin'
    · exact refs_fold_processed_mono tags relationMap nodes colorMap rest _ n
        (processRef_hits tags relationMap nodes colorMap st rid n relation hp hr hfs hfd)
    · exact ih _ hin'

theorem processTag_hits (tags : List TagRecord)
    (relationMap : List (Int × RelationRecord)) (nodes : List Node)
    (colorMap : List (String × String)) (st : BuildState) (t : TagRecord)
    (hdel : t.is_deleted = false) (rid : String) (hrid : rid ∈ t.relation_ids)
    (n : Int) (relation : RelationRecord)
    (hp : parseIntJS rid = some n)
    (hr : mget relationMap n = some relation)
    (hfs : (nodes.find? (fun nd => nd.id = extractTableName relation.src_table)).isSome)
    (hfd : (nodes.find? (fun nd => nd.id = extractTableName relation.dst_table)).isSome) :
    n ∈ (processTag tags relationMap nodes colorMap st t).processed := by
  unfold processTag
  rw [if_neg (by simp [hdel])]
  exact refs_fold_hits tags relationMap nodes colorMap _ st rid hrid n relation hp hr hfs hfd

theorem tags_fold_hits (tags : List TagRecord)
    (relationMap : List (Int × RelationRecord)) (nodes : List Node)
    (colorMap : List (String × String)) (ts : List TagRecord) (st : BuildState)
    (t : TagRecord) (ht : t ∈ ts) (hdel : t.is_deleted = false)
    (rid : String) (hrid : rid ∈ t.relation_ids)
    (n : Int) (relation : RelationRecord)
    (hp : parseIntJS rid = some n)
    (hr : mget relationMap n = some relation)
    (hfs : (nodes.find? (fun nd => nd.id = extractTableName relation.src_table)).isSome)
    (hfd : (nodes.find? (fun nd => nd.id = extractTableName relation.dst_table)).isSome) :
    n ∈ (ts.foldl (processTag tags relationMap nodes colorMap) st).processed := by
  induction ts generalizing st with
  | nil => simp at ht
  | cons t0 rest ih =>
    rw [List.foldl_cons]
    rcases List.mem_cons.mp ht with rfl | ht'
    · exact tags_fold_processed_mono tags relationMap nodes colorMap rest _ n
        (processTag_hits tags relationMap nodes colorMap st t hdel rid hrid n relation
          hp hr hfs hfd)
    · exact ih _ ht'

/-- Invariant preservation through the whole `buildLinks` double loop, for
any state predicate preserved by `processRef` on references of non-deleted
tags. -/
theorem buildLinks_fold_inv (tags : List TagRecord)
    (relationMap : List (Int × RelationRecord)) (nodes : List Node)
    (colorMap : List (String × String)) (P : BuildState → Prop)
    (hstep : ∀ st rid, (∃ t ∈ tags, t.is_deleted = false ∧ rid ∈ t.relation_ids) →
      P st → P (processRef tags relationMap nodes colorMap st rid))
    (init : BuildState) (h0 : P init) :
    P (tags.foldl (processTag tags relationMap nodes colorMap) init) := by
  apply foldl_rec tags _ P _ init h0
  intro st t ht hst
  unfold processTag
  by_cases hdel : t.is_deleted = true
  · rw [if_pos hdel]; exact hst
  · rw [if_neg hdel]
    have hdel' : t.is_deleted = false := by revert hdel; cases t.is_deleted <;> simp
    apply foldl_rec t.relation_ids _ P _ st hst
    intro s rid hrid hs
    exact hstep s rid ⟨t, ht, hdel', hrid⟩ hs

/-! ## Link-list invariants -/

/-- Each relation id has exactly one link when processed, none otherwise. -/
def CountInv (st : BuildState) : Prop :=
  ∀ n : Int, st.links.countP (fun l => l.relationId = n) =
    if n ∈ st.processed then 1 else 0

/-- Every link's `id` string is derived from its relation id. -/
def IdInv (st : BuildState) : Prop :=
  ∀ l ∈ st.links, l.id = "relation-" ++ toString l.relationId

/-- Every link's endpoints are node objects of the node list whose bare
names come from the relation record the link was built from. -/
def EndpointInv (relationMap : List (Int × RelationRecord)) (nodes : List Node)
    (st : BuildState) : Prop :=
  ∀ l ∈ st.links, ∃ r : RelationRecord,
    mget relationMap l.relationId = some r ∧
    l.source ∈ nodes ∧ l.source.id = extractTableName r.src_table ∧
    l.target ∈ nodes ∧ l.target.id = extractTableName r.dst_table

/-- Every link's tag annotations come from the filter over the raw
reference string that triggered it. -/
def TagsInv (tags : List TagRecord) (colorMap : List (String × String))
    (st : BuildState) : Prop :=
  ∀ l ∈ st.links, ∃ (s : String) (t0 : TagRecord),
    parseIntJS s = some l.relationId ∧
    (∃ t ∈ tags, t.is_deleted = false ∧ s ∈ t.relation_ids) ∧
    l.tagNames = (tags.filter (fun t => t.is_deleted = false ∧ s ∈ t.relation_ids)).map
      (fun t => t.tag_name) ∧
    l.tagIds = (tags.filter (fun t => t.is_deleted = false ∧ s ∈ t.relation_ids)).map
      (fun t => t.tag_id) ∧
    l.tagNames ≠ [] ∧
    (tags.filter (fun t => t.is_deleted = false ∧ s ∈ t.relation_ids)).head? = some t0 ∧
    l.color = mget colorMap t0.tag_name

theorem processRef_countInv (tags : List TagRecord)
    (relationMap : List (Int × RelationRecord)) (nodes : List Node)
    (colorMap : List (String × String)) (st : BuildState) (rid : String)
    (h : CountInv st) :
    CountInv (processRef tags relationMap nodes colorMap st rid) := by
  rcases processRef_cases tags relationMap nodes colorMap st rid with heq |
    ⟨n, relation, srcNode, dstNode, hp, hmem, hr, hfs, hfd, heq⟩
  · rw [heq]; exact h
  · rw [heq]
    intro m
    show (st.links ++ [mkLink tags colorMap rid n relation srcNode dstNode _]).countP _ =
      if m ∈ st.processed ++ [n] then 1 else 0
    rw [List.countP_append]
    by_cases hmn : m = n
    · subst hmn
      have h0 := h m
      rw [if_neg hmem] at h0
      rw [h0]
      have hmm : m ∈ st.processed ++ [m] := List.mem_append_right _ (List.mem_singleton.mpr rfl)
      rw [if_pos hmm]
      simp [List.countP_cons, mkLink_relationId]
    · have hne : (m ∈ st.processed ++ [n]) ↔ m ∈ st.processed := by
        rw [List.mem_append, List.mem_singleton]
        exact ⟨fun hc => hc.elim id (fun he => absurd he hmn), Or.inl⟩
      have hc1 : (List.countP (fun l => decide (l.relationId = m))
          [mkLink tags colorMap rid n relation srcNode dstNode
            (computeOffset st.edgeCounts (extractTableName relation.src_table)
              (extractTableName relation.dst_table)).1]) = 0 := by
        simp [List.countP_cons, mkLink_relationId, show ¬n = m from fun he => hmn he.symm]
      rw [hc1, Nat.add_zero]
      by_cases hm : m ∈ st.processed
      · rw [if_pos (hne.mpr hm)]
        have h0 := h m
        rw [if_pos hm] at h0
        exact h0
      · rw [if_neg (fun hc => hm (hne.mp hc))]
        have h0 := h m
        rw [if_neg hm] at h0
        exact h0

theorem processRef_idInv (tags : List TagRecord)
    (relationMap : List (Int × RelationRecord)) (nodes : List Node)
    (colorMap : List (String × String)) (st : BuildState) (rid : String)
    (h : IdInv st) :
    IdInv (processRef tags relationMap nodes colorMap st rid) := by
  rcases processRef_cases tags relationMap nodes colorMap st rid with heq |
    ⟨n, relation, srcNode, dstNode, hp, hmem, hr, hfs, hfd, heq⟩
  · rw [heq]; exact h
  · rw [heq]
    intro l hl
    show l.id = _
    rcases List.mem_append.mp hl with hold | hnew
    · exact h l hold
    · rw [List.mem_singleton.mp hnew, mkLink_id, mkLink_relationId]

theorem processRef_endpointInv (tags : List TagRecord)
    (relationMap : List (Int × RelationRecord)) (nodes : List Node)
    (colorMap : List (String × String)) (st : BuildState) (rid : String)
    (h : EndpointInv relationMap nodes st) :
    EndpointInv relationMap nodes (processRef tags relationMap nodes colorMap st rid) := by
  rcases processRef_cases tags relationMap nodes colorMap st rid with heq |
    ⟨n, relation, srcNode, dstNode, hp, hmem, hr, hfs, hfd, heq⟩
  · rw [heq]; exact h
  · rw [heq]
    intro l hl
    rcases List.mem_append.mp hl with hold | hnew
    · exact h l hold
    · rw [List.mem_singleton.mp hnew]
      refine ⟨relation, ?_, ?_, ?_, ?_, ?_⟩
      · rw [mkLink_relationId]; exact hr
      · rw [mkLink_source]; exact List.mem_of_find?_eq_some hfs
      · rw [mkLink_source]
        have := List.find?_some hfs
        exact of_decide_eq_true this
      · rw [mkLink_target]; exact List.mem_of_find?_eq_some hfd
      · rw [mkLink_target]
        have := List.find?_some hfd
        exact of_decide_eq_true this

theorem processRef_tagsInv (tags : List TagRecord)
    (relationMap : List (Int × RelationRecord)) (nodes : List Node)
    (colorMap : List (String × String)) (st : BuildState) (rid : String)
    (hrid : ∃ t ∈ tags, t.is_deleted = false ∧ rid ∈ t.relation_ids)
    (h : TagsInv tags colorMap st) :
    TagsInv tags colorMap (processRef tags relationMap nodes colorMap st rid) := by
  rcases processRef_cases tags relationMap nodes colorMap st rid with heq |
    ⟨n, relation, srcNode, dstNode, hp, hmem, hr, hfs, hfd, heq⟩
  · rw [heq]; exact h
  · rw [heq]
    intro l hl
    rcases List.mem_append.mp hl with hold | hnew
    · exact h l hold
    · rw [List.mem_singleton.mp hnew]
      obtain ⟨t, ht, hdel, hmemrid⟩ := hrid
      have htf : t ∈ tags.filter (fun t => t.is_deleted = false ∧ rid ∈ t.relation_ids) := by
        rw [List.mem_filter]
        exact ⟨ht, by simp [hdel, hmemrid]⟩
      have hne : tags.filter (fun t => t.is_deleted = false ∧ rid ∈ t.relation_ids) ≠ [] :=
        List.ne_nil_of_mem htf
      obtain ⟨t0, rest, hfil⟩ := List.exists_cons_of_ne_nil hne
      refine ⟨rid, t0, ?_, ⟨t, ht, hdel, hmemrid⟩, mkLink_tagNames _ _ _ _ _ _ _ _,
        mkLink_tagIds _ _ _ _ _ _ _ _, ?_, ?_, ?_⟩
      · rw [mkLink_relationId]; exact hp
      · rw [mkLink_tagNames, hfil]; simp
      · rw [hfil]; rfl
      · rw [mkLink_color, hfil]; rfl

instance : Inhabited Node :=
  ⟨{ id := "", name := "", type := "", relations := [] }⟩

instance : Inhabited Edge :=
  ⟨{ id := "", source := default, target := default, relationId := 0, tagIds := [],
     tagNames := [], color := none, type := "", direction := "", condition := "",
     srcTable := "", dstTable := "", offset := 0 }⟩

/-- The whole `buildLinks` loop state, as folded by `buildLinks`. -/
def buildLinksState (tags : List TagRecord) (relationMap : List (Int × RelationRecord))
    (nodes : List Node) (colorMap : List (String × String)) : BuildState :=
  tags.foldl (processTag tags relationMap nodes colorMap)
    { processed := [], edgeCounts := [], links := [] }

theorem buildLinks_eq_state (tags : List TagRecord)
    (relationMap : List (Int × RelationRecord)) (nodes : List Node)
    (colorMap : List (String × String)) :
    buildLinks tags relationMap nodes colorMap =
      (buildLinksState tags relationMap nodes colorMap).links := rfl

/-- Claim C1: every relation id referenced by a non-deleted tag (through a
`relation_ids` entry parsed to integer) and present in the relation dataset
yields exactly one link with that `relationId`, even under multiple
references, and that link's `id` is the string `relation-` followed by the
id. -/
theorem claim_c1 (tags : List TagRecord) (relations : List RelationRecord) (n : Int)
    (href : ∃ t ∈ tags, t.is_deleted = false ∧ ∃ s ∈ t.relation_ids, parseIntJS s = some n)
    (hpres : ∃ r ∈ relations, r.id = n) :
    (processData tags relations).links.countP (fun l => l.relationId = n) = 1 ∧
    ∀ l ∈ (processData tags relations).links, l.relationId = n →
      l.id = "relation-" ++ toString n := by
  obtain ⟨t, ht, hdel, s, hs, hparse⟩ := href
  obtain ⟨relation, hr⟩ :=
    Option.isSome_iff_exists.mp (buildRelationMap_complete relations n hpres)
  have hrel_mem : relation ∈ relations := buildRelationMap_sound relations n relation hr
  have hfind := buildNodes_find_isSome relations relation hrel_mem
  have hproc : n ∈ (buildLinksState tags (buildRelationMap relations) (buildNodes relations)
      (assignColors tags)).processed :=
    tags_fold_hits tags (buildRelationMap relations) (buildNodes relations)
      (assignColors tags) tags _ t ht hdel s hs n relation hparse hr
      (by rw [hfind.1]) (by rw [hfind.2])
  have hcount : CountInv (buildLinksState tags (buildRelationMap relations)
      (buildNodes relations) (assignColors tags)) :=
    buildLinks_fold_inv tags _ _ _ CountInv
      (fun st rid _ h => processRef_countInv _ _ _ _ st rid h) _
      (by intro m; simp [CountInv])
  have hid : IdInv (buildLinksState tags (buildRelationMap relations)
      (buildNodes relations) (assignColors tags)) :=
    buildLinks_fold_inv tags _ _ _ IdInv
      (fun st rid _ h => processRef_idInv _ _ _ _ st rid h) _
      (by intro l hl; simp at hl)
  constructor
  · have hc := hcount n
    rw [if_pos hproc] at hc
    exact hc
  · intro l hl hln
    have hi := hid l hl
    rw [hln] at hi
    exact hi

/-- Single non-deleted tag referencing relation 1 twice over two strings. -/
def tagW : TagRecord :=
  { tag_id := "T1", tag_name := "alpha", src_dataset := "", dst_dataset := "",
    relation_ids := ["1", "1"], tenant_id := "x", is_deleted := false }

theorem claim_c1_witness :
    (∃ t ∈ [tagW], t.is_deleted = false ∧ ∃ s ∈ t.relation_ids, parseIntJS s = some 1) ∧
    (∃ r ∈ [relSample], r.id = 1) ∧
    (processData [tagW] [relSample]).links.countP (fun l => l.relationId = 1) = 1 ∧
    ∀ l ∈ (processData [tagW] [relSample]).links, l.relationId = 1 →
      l.id = "relation-" ++ toString (1 : Int) :=
  ⟨by decide, by decide, claim_c1 [tagW] [relSample] 1 (by decide) (by decide)⟩

/-- Non-canonical reference string: parses to 1 but is not `"1"`. -/
def tag01 : TagRecord :=
  { tag_id := "T1", tag_name := "a", src_dataset := "", dst_dataset := "",
    relation_ids := ["01"], tenant_id := "x", is_deleted := false }

/-- Canonical reference string for the same relation id. -/
def tag1 : TagRecord :=
  { tag_id := "T2", tag_name := "b", src_dataset := "", dst_dataset := "",
    relation_ids := ["1"], tenant_id := "x", is_deleted := false }

/-- Claim C2 counterexample: the edge for relation 1 is emitted from the
reference string `"01"`, and its `tagNames` is `["a"]` — the tags whose
`relation_ids` contain `"01"` — whereas the non-deleted tags whose
`relation_ids` contain the edge's relation id string-compared (`"1"`) are
exactly `["b"]`.  So `tagNames` is not the set prescribed by the claim. -/
theorem claim_c2_counterexample :
    ((processData [tag01, tag1] [relSample]).links.map (fun l => l.relationId)) = [1] ∧
    ((processData [tag01, tag1] [relSample]).links.map (fun l => l.tagNames)) = [["a"]] ∧
    (([tag01, tag1].filter
        (fun t => t.is_deleted = false ∧ (toString (1 : Int)) ∈ t.relation_ids)).map
      (fun t => t.tag_name)) = ["b"] := by decide

/-- Claim C2 as amended: for every emitted edge there is a raw reference
string `s` — the one through which the edge was first emitted, which parses
to the edge's `relationId` but need not be its canonical decimal form —
such that `tagNames`/`tagIds` list, in tag iteration order, exactly the
non-deleted tags whose `relation_ids` contain `s` (string-compared);
`tagNames` is non-empty, and the edge's color is the color-map entry of the
first such tag. -/
theorem claim_c2_amended (tags : List TagRecord) (relations : List RelationRecord)
    (l : Edge) (hl : l ∈ (processData tags relations).links) :
    ∃ (s : String) (t0 : TagRecord),
      parseIntJS s = some l.relationId ∧
      (∃ t ∈ tags, t.is_deleted = false ∧ s ∈ t.relation_ids) ∧
      l.tagNames = (tags.filter (fun t => t.is_deleted = false ∧ s ∈ t.relation_ids)).map
        (fun t => t.tag_name) ∧
      l.tagIds = (tags.filter (fun t => t.is_deleted = false ∧ s ∈ t.relation_ids)).map
        (fun t => t.tag_id) ∧
      l.tagNames ≠ [] ∧
      (tags.filter (fun t => t.is_deleted = false ∧ s ∈ t.relation_ids)).head? = some t0 ∧
      l.color = mget (processData tags relations).colorMap t0.tag_name := by
  have htags : TagsInv tags (assignColors tags) (buildLinksState tags
      (buildRelationMap relations) (buildNodes relations) (assignColors tags)) :=
    buildLinks_fold_inv tags _ _ _ (TagsInv tags (assignColors tags))
      (fun st rid hrid h => processRef_tagsInv _ _ _ _ st rid hrid h) _
      (by intro l hl; simp at hl)
  exact htags l hl

theorem claim_c2_witness :
    ∃ (s : String) (t0 : TagRecord),
      parseIntJS s = some ((processData [tag1] [relSample]).links.headI.relationId) ∧
      (∃ t ∈ [tag1], t.is_deleted = false ∧ s ∈ t.relation_ids) ∧
      (processData [tag1] [relSample]).links.headI.tagNames =
        ([tag1].filter (fun t => t.is_deleted = false ∧ s ∈ t.relation_ids)).map
          (fun t => t.tag_name) ∧
      (processData [tag1] [relSample]).links.headI.tagIds =
        ([tag1].filter (fun t => t.is_deleted = false ∧ s ∈ t.relation_ids)).map
          (fun t => t.tag_id) ∧
      (processData [tag1] [relSample]).links.headI.tagNames ≠ [] ∧
      ([tag1].filter (fun t => t.is_deleted = false ∧ s ∈ t.relation_ids)).head? = some t0 ∧
      (processData [tag1] [relSample]).links.headI.color =
        mget (processData [tag1] [relSample]).colorMap t0.tag_name :=
  claim_c2_amended [tag1] [relSample] ((processData [tag1] [relSample]).links.headI)
    (by decide)

/-! ## Tenant filtering endpoint closure (claim C5) -/

theorem mem_sadd_self [DecidableEq α] (s : List α) (a : α) : a ∈ sadd s a :=
  (mem_sadd s a a).mpr (Or.inr rfl)

theorem mem_sadd_of_mem [DecidableEq α] (s : List α) (a x : α) (hx : x ∈ s) :
    x ∈ sadd s a :=
  (mem_sadd s a x).mpr (Or.inl hx)

theorem tables_fold_mono (rs : List RelationRecord) (s : List String) (x : String)
    (hx : x ∈ s) :
    x ∈ rs.foldl (fun s r =>
      sadd (sadd s (extractTableName r.src_table)) (extractTableName r.dst_table)) s :=
  foldl_rec rs _ (fun s => x ∈ s)
    (fun s r _ h => mem_sadd_of_mem _ _ _ (mem_sadd_of_mem _ _ _ h)) s hx

theorem tables_fold_covers (rs : List RelationRecord) (s : List String)
    (r : RelationRecord) (hr : r ∈ rs) :
    extractTableName r.src_table ∈ rs.foldl (fun s r =>
      sadd (sadd s (extractTableName r.src_table)) (extractTableName r.dst_table)) s ∧
    extractTableName r.dst_table ∈ rs.foldl (fun s r =>
      sadd (sadd s (extractTableName r.src_table)) (extractTableName r.dst_table)) s := by
  induction rs generalizing s with
  | nil => simp at hr
  | cons r0 rest ih =>
    rw [List.foldl_cons]
    rcases List.mem_cons.mp hr with rfl | hr'
    · constructor
      · exact tables_fold_mono rest _ _ (mem_sadd_of_mem _ _ _ (mem_sadd_self _ _))
      · exact tables_fold_mono rest _ _ (mem_sadd_self _ _)
    · exact ih _ hr'

/-- Every relation that resolves from the tenant's relation-id set
contributes both its bare table names to `tenantTables`. -/
theorem tenantTables_covers (m : Model) (tid : String) (r : RelationRecord)
    (hr : r ∈ (tenantRelationIds m tid).filterMap (fun i => mget m.relationMap i)) :
    extractTableName r.src_table ∈ tenantTables m tid ∧
    extractTableName r.dst_table ∈ tenantTables m tid := by
  unfold tenantTables
  exact tables_fold_covers _ [] r hr

/-- Claim C5: for every tenant id, the filtered nodes and links are
subsequences of the full ones, and every filtered link's source and target
node belong to the filtered node sequence. -/
theorem claim_c5 (tags : List TagRecord) (relations : List RelationRecord)
    (tenantId : Option String) :
    ((getDataByTenant (processData tags relations) tenantId).nodes).Sublist
      (processData tags relations).nodes ∧
    ((getDataByTenant (processData tags relations) tenantId).links).Sublist
      (processData tags relations).links ∧
    ∀ l ∈ (getDataByTenant (processData tags relations) tenantId).links,
      l.source ∈ (getDataByTenant (processData tags relations) tenantId).nodes ∧
      l.target ∈ (getDataByTenant (processData tags relations) tenantId).nodes := by
  have hend : EndpointInv (buildRelationMap relations) (buildNodes relations)
      (buildLinksState tags (buildRelationMap relations) (buildNodes relations)
        (assignColors tags)) :=
    buildLinks_fold_inv tags _ _ _ (EndpointInv (buildRelationMap relations) (buildNodes relations))
      (fun st rid _ h => processRef_endpointInv _ _ _ _ st rid h) _
      (by intro l hl; simp at hl)
  unfold getDataByTenant
  split
  · refine ⟨List.Sublist.refl _, List.Sublist.refl _, ?_⟩
    intro l hl
    obtain ⟨r, _, hsrcmem, _, htgtmem, _⟩ := hend l hl
    exact ⟨hsrcmem, htgtmem⟩
  · refine ⟨List.filter_sublist _, List.filter_sublist _, ?_⟩
    intro l hl
    rw [List.mem_filter] at hl
    obtain ⟨hlm, hlid⟩ := hl
    have hlid' : l.relationId ∈
        tenantRelationIds (processData tags relations) (tenantId.getD "") :=
      of_decide_eq_true hlid
    obtain ⟨r, hr, hsrcmem, hsrcid, htgtmem, htgtid⟩ := hend l hlm
    have hrmem : r ∈ (tenantRelationIds (processData tags relations)
        (tenantId.getD "")).filterMap
          (fun i => mget (processData tags relations).relationMap i) :=
      List.mem_filterMap.mpr ⟨l.relationId, hlid', hr⟩
    have htbl := tenantTables_covers (processData tags relations) (tenantId.getD "") r hrmem
    constructor
    · rw [List.mem_filter]
      exact ⟨hsrcmem, by rw [hsrcid]; exact decide_eq_true htbl.1⟩
    · rw [List.mem_filter]
      exact ⟨htgtmem, by rw [htgtid]; exact decide_eq_true htbl.2⟩

/-! ## Offsets per unordered node pair (claim C3) -/

/-- A bare table name that does not contain the dash used to build edge
keys, so that distinct pairs cannot produce colliding keys. -/
def cleanName (s : String) : Prop := '-' ∉ s.data

/-- The edges whose endpoints form the unordered pair `{a, b}`. -/
def onPair (a b : String) (e : Edge) : Prop :=
  (e.source.id = a ∧ e.target.id = b) ∨ (e.source.id = b ∧ e.target.id = a)

instance (a b : String) (e : Edge) : Decidable (onPair a b e) := by
  unfold onPair; infer_instance

/-- The counter currently associated with the unordered pair `{a, b}`:
forward key first, then reversed key, defaulting to zero. -/
def cgetD (ec : List (String × Nat)) (a b : String) : Nat :=
  match mget ec (pairKey a b) with
  | some c => c
  | none =>
    match mget ec (pairKey b a) with
    | some c => c
    | none => 0

theorem append_sep_inj (sep : Char) (xs ys xs2 ys2 : List Char)
    (h1 : sep ∉ xs) (h2 : sep ∉ xs2)
    (heq : xs ++ sep :: ys = xs2 ++ sep :: ys2) : xs = xs2 ∧ ys = ys2 := by
  induction xs generalizing xs2 with
  | nil =>
    cases xs2 with
    | nil => simpa using heq
    | cons c rest =>
      simp only [List.nil_append, List.cons_append, List.cons.injEq] at heq
      exact absurd (heq.1 ▸ List.mem_cons_self c rest) h2
  | cons c rest ih =>
    cases xs2 with
    | nil =>
      simp only [List.cons_append, List.nil_append, List.cons.injEq] at heq
      exact absurd (heq.1 ▸ List.mem_cons_self c rest) h1
    | cons c2 rest2 =>
      simp only [List.cons_append, List.cons.injEq] at heq
      obtain ⟨hc, hrest⟩ := heq
      have h1' : sep ∉ rest := fun hm => h1 (List.mem_cons_of_mem _ hm)
      have h2' : sep ∉ rest2 := fun hm => h2 (List.mem_cons_of_mem _ hm)
      obtain ⟨ha, hb⟩ := ih rest2 h1' h2' hrest
      exact ⟨by rw [hc, ha], hb⟩

theorem pairKey_data (a b : String) : (pairKey a b).data = a.data ++ '-' :: b.data := by
  unfold pairKey
  rw [String.data_append, String.data_append, List.append_assoc]
  rfl

/-- Collision-freedom of the edge keys for dash-free table names. -/
theorem pairKey_inj (a b c d : String) (ha : cleanName a) (hc : cleanName c)
    (h : pairKey a b = pairKey c d) : a = c ∧ b = d := by
  have hd := congrArg String.data h
  rw [pairKey_data, pairKey_data] at hd
  obtain ⟨h1, h2⟩ := append_sep_inj '-' a.data b.data c.data d.data ha hc hd
  exact ⟨String.ext h1, String.ext h2⟩

theorem filter_onPair_comm (a b : String) (ls : List Edge) :
    ls.filter (fun e => onPair a b e) = ls.filter (fun e => onPair b a e) := by
  apply List.filter_congr
  intro e _
  apply decide_eq_decide.mpr
  unfold onPair
  tauto

/-- The two orientations read the same counter when at most one of the two
directed keys is present. -/
theorem cgetD_comm (ec : List (String × Nat)) (a b : String)
    (hnb : ¬((mget ec (pairKey a b)).isSome ∧ (mget ec (pairKey b a)).isSome)) :
    cgetD ec a b = cgetD ec b a := by
  unfold cgetD
  cases h1 : mget ec (pairKey a b) with
  | some c =>
    cases h2 : mget ec (pairKey b a) with
    | some c2 => exact absurd ⟨by rw [h1]; rfl, by rw [h2]; rfl⟩ hnb
    | none => rfl
  | none =>
    cases h2 : mget ec (pairKey b a) with
    | some c2 => rfl
    | none => rfl

theorem cgetD_mset_other (ec : List (String × Nat)) (K : String) (v : Nat)
    (a b : String) (h1 : K ≠ pairKey a b) (h2 : K ≠ pairKey b a) :
    cgetD (mset ec K v) a b = cgetD ec a b := by
  unfold cgetD
  rw [mget_mset_ne ec K (pairKey a b) v (fun he => h1 he.symm),
    mget_mset_ne ec K (pairKey b a) v (fun he => h2 he.symm)]

/-- Branch analysis of `computeOffset`: the offset returned is the current
counter of the unordered pair, and the update bumps exactly one of the two
directed keys to that counter plus one. -/
theorem computeOffset_spec (ec : List (String × Nat)) (s d : String) :
    (computeOffset ec s d).1 = cgetD ec s d ∧
    (((computeOffset ec s d).2 = mset ec (pairKey s d) (cgetD ec s d + 1) ∧
      (mget ec (pairKey d s) = none ∨ (mget ec (pairKey s d)).isSome)) ∨
     ((computeOffset ec s d).2 = mset ec (pairKey d s) (cgetD ec s d + 1) ∧
      mget ec (pairKey s d) = none ∧ (mget ec (pairKey d s)).isSome)) := by
  unfold computeOffset cgetD
  cases h1 : mget ec (pairKey s d) with
  | some c =>
    exact ⟨rfl, Or.inl ⟨rfl, Or.inr rfl⟩⟩
  | none =>
    cases h2 : mget ec (pairKey d s) with
    | some c =>
      exact ⟨rfl, Or.inr ⟨rfl, rfl, rfl⟩⟩
    | none =>
      exact ⟨rfl, Or.inl ⟨rfl, Or.inl rfl⟩⟩

/-- The `buildLinks` state invariant for the offset claim, assuming
collision-free keys. -/
def OffInv (st : BuildState) : Prop :=
  (∀ e ∈ st.links, cleanName e.source.id ∧ cleanName e.target.id) ∧
  (∀ k c, mget st.edgeCounts k = some c →
    ∃ a b, cleanName a ∧ cleanName b ∧ k = pairKey a b) ∧
  (∀ a b, cleanName a → cleanName b → a ≠ b →
    ¬((mget st.edgeCounts (pairKey a b)).isSome ∧
      (mget st.edgeCounts (pairKey b a)).isSome)) ∧
  (∀ a b, cleanName a → cleanName b →
    cgetD st.edgeCounts a b = (st.links.filter (fun e => onPair a b e)).length) ∧
  (∀ a b, (st.links.filter (fun e => onPair a b e)).map (fun e => e.offset) =
    List.range (st.links.filter (fun e => onPair a b e)).length)

theorem mget_mset_isSome_cases [DecidableEq κ] (m : List (κ × β)) (K k : κ) (v : β)
    (h : (mget (mset m K v) k).isSome) : k = K ∨ (mget m k).isSome := by
  by_cases hk : k = K
  · exact Or.inl hk
  · right; rw [mget_mset_ne m K k v hk] at h; exact h

theorem cgetD_mset_fwd (ec : List (String × Nat)) (v : Nat) (a b : String) :
    cgetD (mset ec (pairKey a b) v) a b = v := by
  unfold cgetD
  rw [mget_mset_self]

theorem cgetD_mset_rev_of_none (ec : List (String × Nat)) (v : Nat) (a b : String)
    (hab : pairKey a b ≠ pairKey b a) (hnone : mget ec (pairKey a b) = none) :
    cgetD (mset ec (pairKey b a) v) a b = v := by
  unfold cgetD
  rw [mget_mset_ne ec (pairKey b a) (pairKey a b) v hab, hnone, mget_mset_self]

theorem pairKey_ne_of_ne (a b : String) (ca : cleanName a) (cb : cleanName b)
    (hab : a ≠ b) : pairKey a b ≠ pairKey b a :=
  fun he => hab (pairKey_inj a b b a ca cb he).1

/-- `OffInv` is preserved by the emit step of `processRef`: appending one
edge on the clean pair `{s0, d0}` whose offset is the `computeOffset`
result, while `edgeCounts` receives the `computeOffset` update. -/
theorem offInv_emit (st : BuildState) (n : Int) (s0 d0 : String) (e : Edge)
    (hcs : cleanName s0) (hcd : cleanName d0)
    (hesid : e.source.id = s0) (hetid : e.target.id = d0)
    (heoff : e.offset = (computeOffset st.edgeCounts s0 d0).1)
    (h : OffInv st) :
    OffInv { processed := st.processed ++ [n]
             edgeCounts := (computeOffset st.edgeCounts s0 d0).2
             links := st.links ++ [e] } := by
  obtain ⟨hcl, hck, hnb, hcv, hoff⟩ := h
  obtain ⟨hoffeq, hspec⟩ := computeOffset_spec st.edgeCounts s0 d0
  have honpair : ∀ a b : String, onPair a b e ↔ ((s0 = a ∧ d0 = b) ∨ (s0 = b ∧ d0 = a)) := by
    intro a b
    unfold onPair
    rw [hesid, hetid]
  have hfilter : ∀ a b : String,
      (st.links ++ [e]).filter (fun x => onPair a b x) =
        st.links.filter (fun x => onPair a b x) ++
          (if (s0 = a ∧ d0 = b) ∨ (s0 = b ∧ d0 = a) then [e] else []) := by
    intro a b
    rw [List.filter_append]
    congr 1
    by_cases hP : (s0 = a ∧ d0 = b) ∨ (s0 = b ∧ d0 = a)
    · rw [if_pos hP]
      have hd : decide (onPair a b e) = true := decide_eq_true ((honpair a b).mpr hP)
      simp [List.filter, hd]
    · rw [if_neg hP]
      have hd : decide (onPair a b e) = false :=
        decide_eq_false (fun hx => hP ((honpair a b).mp hx))
      simp [List.filter, hd]
  have hv : ∀ a b : String, ((s0 = a ∧ d0 = b) ∨ (s0 = b ∧ d0 = a)) →
      cgetD st.edgeCounts s0 d0 = (st.links.filter (fun x => onPair a b x)).length := by
    intro a b hP
    rw [hcv s0 d0 hcs hcd]
    rcases hP with ⟨ha, hb⟩ | ⟨ha, hb⟩
    · subst ha; subst hb
      rfl
    · subst ha; subst hb
      rw [filter_onPair_comm]
  have hF1 : ∀ a b : String, cleanName a → cleanName b →
      cgetD (computeOffset st.edgeCounts s0 d0).2 a b =
        if (s0 = a ∧ d0 = b) ∨ (s0 = b ∧ d0 = a)
          then cgetD st.edgeCounts s0 d0 + 1 else cgetD st.edgeCounts a b := by
    intro a b ca cb
    rcases hspec with ⟨hEC, hside⟩ | ⟨hEC, hnone, hsome⟩
    · by_cases hP : (s0 = a ∧ d0 = b) ∨ (s0 = b ∧ d0 = a)
      · rw [if_pos hP]
        rcases hP with ⟨ha, hb⟩ | ⟨ha, hb⟩
        · subst ha; subst hb
          rw [hEC]
          exact cgetD_mset_fwd _ _ _ _
        · subst ha; subst hb
          rw [hEC]
          by_cases hsd : s0 = d0
          · subst hsd
            exact cgetD_mset_fwd _ _ _ _
          · have hnone2 : mget st.edgeCounts (pairKey d0 s0) = none := by
              rcases hside with hn | hs
              · exact hn
              · have hb2 := hnb s0 d0 hcs hcd hsd
                cases hmm : mget st.edgeCounts (pairKey d0 s0) with
                | none => rfl
                | some c => exact absurd ⟨hs, by rw [hmm]; rfl⟩ hb2
            exact cgetD_mset_rev_of_none _ _ _ _
              (pairKey_ne_of_ne d0 s0 hcd hcs (fun he => hsd he.symm)) hnone2
      · rw [if_neg hP, hEC]
        apply cgetD_mset_other
        · intro hk
          obtain ⟨h1, h2⟩ := pairKey_inj s0 d0 a b hcs ca hk
          exact hP (Or.inl ⟨h1, h2⟩)
        · intro hk
          obtain ⟨h1, h2⟩ := pairKey_inj s0 d0 b a hcs cb hk
          exact hP (Or.inr ⟨h1, h2⟩)
    · by_cases hP : (s0 = a ∧ d0 = b) ∨ (s0 = b ∧ d0 = a)
      · rw [if_pos hP]
        rcases hP with ⟨ha, hb⟩ | ⟨ha, hb⟩
        · subst ha; subst hb
          rw [hEC]
          by_cases hsd : s0 = d0
          · subst hsd
            exact cgetD_mset_fwd _ _ _ _
          · exact cgetD_mset_rev_of_none _ _ _ _
              (pairKey_ne_of_ne s0 d0 hcs hcd hsd) hnone
        · subst ha; subst hb
          rw [hEC]
          exact cgetD_mset_fwd _ _ _ _
      · rw [if_neg hP, hEC]
        apply cgetD_mset_other
        · intro hk
          obtain ⟨h1, h2⟩ := pairKey_inj d0 s0 a b hcd ca hk
          exact hP (Or.inr ⟨h2, h1⟩)
        · intro hk
          obtain ⟨h1, h2⟩ := pairKey_inj d0 s0 b a hcd cb hk
          exact hP (Or.inl ⟨h2, h1⟩)
  refine ⟨?_, ?_, ?_, ?_, ?_⟩
  · intro e2 he2
    rcases List.mem_append.mp he2 with ho | hn2
    · exact hcl e2 ho
    · rw [List.mem_singleton.mp hn2]
      constructor
      · rw [hesid]; exact hcs
      · rw [hetid]; exact hcd
  · intro k c hk
    rcases hspec with ⟨hEC, _⟩ | ⟨hEC, _, _⟩ <;> rw [hEC] at hk <;>
      rcases mget_mset_cases _ _ _ _ _ hk with ⟨rfl, _⟩ | hold
    · exact ⟨s0, d0, hcs, hcd, rfl⟩
    · exact hck k c hold
    · exact ⟨d0, s0, hcd, hcs, rfl⟩
    · exact hck k c hold
  · intro a b ca cb hab hboth
    obtain ⟨h1, h2⟩ := hboth
    rcases hspec with ⟨hEC, hside⟩ | ⟨hEC, hnone, hsome⟩
    · rw [hEC] at h1 h2
      rcases mget_mset_isSome_cases _ _ _ _ h1 with hk1 | ho1 <;>
        rcases mget_mset_isSome_cases _ _ _ _ h2 with hk2 | ho2
      · exact pairKey_ne_of_ne a b ca cb hab (hk1.trans hk2.symm)
      · obtain ⟨ha, hb⟩ := pairKey_inj a b s0 d0 ca hcs hk1
        subst ha; subst hb
        rcases hside with hn | hs
        · rw [hn] at ho2; exact absurd ho2 (by simp)
        · exact hnb a b ca cb hab ⟨hs, ho2⟩
      · obtain ⟨hb, ha⟩ := pairKey_inj b a s0 d0 cb hcs hk2
        subst hb; subst ha
        rcases hside with hn | hs
        · rw [hn] at ho1; exact absurd ho1 (by simp)
        · exact hnb b a cb ca (fun he => hab he.symm) ⟨hs, ho1⟩
      · exact hnb a b ca cb hab ⟨ho1, ho2⟩
    · rw [hEC] at h1 h2
      rcases mget_mset_isSome_cases _ _ _ _ h1 with hk1 | ho1 <;>
        rcases mget_mset_isSome_cases _ _ _ _ h2 with hk2 | ho2
      · exact pairKey_ne_of_ne a b ca cb hab (hk1.trans hk2.symm)
      · obtain ⟨ha, hb⟩ := pairKey_inj a b d0 s0 ca hcd hk1
        subst ha; subst hb
        rw [hnone] at ho2
        exact absurd ho2 (by simp)
      · obtain ⟨hb, ha⟩ := pairKey_inj b a d0 s0 cb hcd hk2
        subst hb; subst ha
        rw [hnone] at ho1
        exact absurd ho1 (by simp)
      · exact hnb a b ca cb hab ⟨ho1, ho2⟩
  · intro a b ca cb
    show cgetD (computeOffset st.edgeCounts s0 d0).2 a b = _
    rw [hF1 a b ca cb, hfilter a b]
    by_cases hP : (s0 = a ∧ d0 = b) ∨ (s0 = b ∧ d0 = a)
    · rw [if_pos hP, if_pos hP, List.length_append, ← hv a b hP]
      rfl
    · rw [if_neg hP, if_neg hP, List.length_append]
      rw [hcv a b ca cb]
      rfl
  · intro a b
    show ((st.links ++ [e]).filter (fun x => onPair a b x)).map (fun x => x.offset) = _
    rw [hfilter a b]
    by_cases hP : (s0 = a ∧ d0 = b) ∨ (s0 = b ∧ d0 = a)
    · have hca : cleanName a := by
        rcases hP with ⟨ha, hb⟩ | ⟨ha, hb⟩
        · exact ha ▸ hcs
        · exact hb ▸ hcd
      have hcb : cleanName b := by
        rcases hP with ⟨ha, hb⟩ | ⟨ha, hb⟩
        · exact hb ▸ hcd
        · exact ha ▸ hcs
      rw [if_pos hP, List.map_append, List.length_append, hoff a b]
      have heoff2 : e.offset = (st.links.filter (fun x => onPair a b x)).length := by
        rw [heoff, hoffeq, hv a b hP]
      rw [show (List.map (fun x => x.offset) [e]) = [(st.links.filter
          (fun x => onPair a b x)).length] from by rw [List.map_singleton, heoff2]]
      have hl1 : ([e] : List Edge).length = 1 := rfl
      rw [hl1, List.range_succ]
    · rw [if_neg hP]
      simp [hoff a b]

instance (s : String) : Decidable (cleanName s) := by
  unfold cleanName; infer_instance

theorem processRef_offInv (tags : List TagRecord)
    (relationMap : List (Int × RelationRecord)) (nodes : List Node)
    (colorMap : List (String × String)) (st : BuildState) (rid : String)
    (hclean : ∀ n r, mget relationMap n = some r →
      cleanName (extractTableName r.src_table) ∧ cleanName (extractTableName r.dst_table))
    (h : OffInv st) : OffInv (processRef tags relationMap nodes colorMap st rid) := by
  rcases processRef_cases tags relationMap nodes colorMap st rid with heq |
    ⟨n, relation, srcNode, dstNode, hp, hmem, hr, hfs, hfd, heq⟩
  · rw [heq]; exact h
  · rw [heq]
    obtain ⟨hcs, hcd⟩ := hclean n relation hr
    have hs1 := List.find?_some hfs
    have hd1 := List.find?_some hfd
    exact offInv_emit st n _ _ _ hcs hcd
      (by rw [mkLink_source]; exact of_decide_eq_true hs1)
      (by rw [mkLink_target]; exact of_decide_eq_true hd1)
      (by rw [mkLink_offset]) ⟨h.1, h.2.1, h.2.2.1, h.2.2.2.1, h.2.2.2.2⟩

/-- Claim C3 as amended: provided no bare table name of the relation
dataset contains a dash — so that the string keys `src-dst` cannot collide
across distinct node pairs — the edges on every unordered node pair carry
offsets `0, 1, 2, ...` in first-seen order, contiguous and starting at
zero, regardless of edge direction, and distinct pairs are offset
independently.  (Without that proviso the claim fails: the key is a plain
string concatenation and collides, see the counterexample.) -/
theorem claim_c3_amended (tags : List TagRecord) (relations : List RelationRecord)
    (hclean : ∀ r ∈ relations, cleanName (extractTableName r.src_table) ∧
      cleanName (extractTableName r.dst_table)) :
    ∀ a b : String,
      ((processData tags relations).links.filter (fun e => onPair a b e)).map
        (fun e => e.offset) =
      List.range ((processData tags relations).links.filter
        (fun e => onPair a b e)).length := by
  have hcleanMap : ∀ n r, mget (buildRelationMap relations) n = some r →
      cleanName (extractTableName r.src_table) ∧ cleanName (extractTableName r.dst_table) :=
    fun n r hr => hclean r (buildRelationMap_sound relations n r hr)
  have hInv : OffInv (buildLinksState tags (buildRelationMap relations)
      (buildNodes relations) (assignColors tags)) := by
    apply buildLinks_fold_inv tags _ _ _ OffInv
      (fun st rid _ hi => processRef_offInv _ _ _ _ st rid hcleanMap hi)
    refine ⟨?_, ?_, ?_, ?_, ?_⟩
    · intro e he; simp at he
    · intro k c hk; simp [mget] at hk
    · intro a b _ _ _ hb
      rw [show (mget ([] : List (String × Nat)) (pairKey a b)) = none from rfl] at hb
      exact absurd hb.1 (by simp)
    · intro a b _ _; rfl
    · intro a b; rfl
  exact fun a b => hInv.2.2.2.2 a b

/-- One non-deleted tag referencing relations 1 and 2. -/
def tagTwoRels : TagRecord :=
  { tag_id := "T1", tag_name := "a", src_dataset := "", dst_dataset := "",
    relation_ids := ["1", "2"], tenant_id := "x", is_deleted := false }

/-- Table names containing a dash that make two distinct pairs collide. -/
def relDashA : RelationRecord :=
  { id := 1, src_table := "s.a-b", dst_table := "s.c",
    type := "", direction := "", condition := "" }

def relDashB : RelationRecord :=
  { id := 2, src_table := "s.a", dst_table := "s.b-c",
    type := "", direction := "", condition := "" }

/-- Claim C3 counterexample: the pairs `{a-b, c}` and `{a, b-c}` are
distinct unordered node pairs, but both produce the edge-count key
`a-b-c`, so the single edge on the pair `{a, b-c}` receives offset 1
instead of 0 — offsets on that pair are neither contiguous nor starting at
zero, and the two pairs are not offset independently. -/
theorem claim_c3_counterexample :
    ((processData [tagTwoRels] [relDashA, relDashB]).links.filter
        (fun e => onPair "a" "b-c" e)).length = 1 ∧
    ((processData [tagTwoRels] [relDashA, relDashB]).links.filter
        (fun e => onPair "a" "b-c" e)).map (fun e => e.offset) = [1] ∧
    ((processData [tagTwoRels] [relDashA, relDashB]).links.filter
        (fun e => onPair "a" "b-c" e)).map (fun e => e.offset) ≠
      List.range ((processData [tagTwoRels] [relDashA, relDashB]).links.filter
        (fun e => onPair "a" "b-c" e)).length := by decide

/-- Two antiparallel relations between the clean tables `x` and `y`. -/
def relXY : RelationRecord :=
  { id := 1, src_table := "s.x", dst_table := "s.y",
    type := "", direction := "", condition := "" }

def relYX : RelationRecord :=
  { id := 2, src_table := "s.y", dst_table := "s.x",
    type := "", direction := "", condition := "" }

theorem claim_c3_witness :
    ((processData [tagTwoRels] [relXY, relYX]).links.filter
        (fun e => onPair "x" "y" e)).map (fun e => e.offset) =
      List.range ((processData [tagTwoRels] [relXY, relYX]).links.filter
        (fun e => onPair "x" "y" e)).length :=
  claim_c3_amended [tagTwoRels] [relXY, relYX] (by decide) "x" "y"
